import Mathlib

/-
Verification of the statistical routines of the precipattractor repository
(src/pymodules/stat_tools_attractor.py and src/pymodules/data_tools_attractor.py)
against its natural-language specification.

Modelling conventions.
* numpy arrays are modelled by `Mat α`: a pair of dimensions together with an
  entry function.  Machine floating-point numbers are a subset of the rationals,
  so float arrays are modelled with exact rational entries and the float
  arithmetic of the source is idealised as exact arithmetic in ℚ (and in ℝ/ℂ
  where the source takes square roots, logarithms or Fourier transforms).
* External library calls whose internals none of the claims depend on
  (scipy.ndimage.gaussian_filter, skimage.measure.label, pywt.wavedec2/waverec2,
  np.random.randn) are taken as explicit function parameters; every theorem
  quantifies over them.
* Fallible code paths (`sys.exit`, Python NameError / UnboundLocalError,
  numpy broadcast errors) are modelled with `Except String`.
* Division by zero in ℚ/ℝ is total (yielding 0) where numpy would produce
  nan/inf; the theorems below only assert facts in situations where the
  source returns normally, as stated in their hypotheses and doc comments.
-/

/-- A 2D numpy-style array with `rows × cols` entries, accessed as `v i j`
(row index first).  Reads outside the stated dimensions are unconstrained
junk values; all theorems only inspect in-range entries. -/
structure Mat (α : Type) where
  rows : ℕ
  cols : ℕ
  v : ℕ → ℕ → α

/-- Build a `Mat ℚ` from a rectangular list of rows (row-major, like a
numpy 2D array literal). -/
def mkMat (xss : List (List ℚ)) : Mat ℚ :=
  ⟨xss.length, (xss.headD []).length, fun i j => (xss.getD i []).getD j 0⟩

/-- Sum of all entries of the array (`np.sum`). -/
def matSum (m : Mat ℚ) : ℚ :=
  ∑ i in Finset.range m.rows, ∑ j in Finset.range m.cols, m.v i j

/-- Total number of entries (`array.size`). -/
def matCount (m : Mat α) : ℕ := m.rows * m.cols

/-- Row-major list of all entries, as produced by flattening a numpy array. -/
def entriesList (m : Mat ℚ) : List ℚ :=
  (List.range m.rows).flatMap fun i => (List.range m.cols).map fun j => m.v i j

/-- Number of entries satisfying a predicate: models `np.sum(boolArray)`
for an elementwise boolean comparison array. -/
def countEntries (m : Mat ℚ) (p : ℚ → Bool) : ℕ :=
  (entriesList m).countP p

/-- Mean of all entries (`np.mean` / `np.nanmean`: rational entries are never
NaN, so the two agree).  Empty arrays give the junk value 0 (numpy warns and
returns nan there). -/
def matMean (m : Mat ℚ) : ℚ := matSum m / (matCount m : ℚ)

/-- Population variance of all entries (`np.var` / `np.nanvar`, ddof = 0). -/
def matVar (m : Mat ℚ) : ℚ :=
  (∑ i in Finset.range m.rows, ∑ j in Finset.range m.cols, (m.v i j - matMean m) ^ 2) /
    (matCount m : ℚ)

/-! ### compute_war

Source: src/pymodules/stat_tools_attractor.py lines 37–49; an identical copy
sits in src/pymodules/data_tools_attractor.py lines 72–84. -/

/-- `compute_war(rainfield, rainThreshold, noData)`.

`idxRain = rainfield >= rainThreshold` and `idxRadarDomain = rainfield > noData + 1`
are elementwise boolean arrays; `np.sum` of them counts the `True` entries over the
whole array.  `len(idxRain)` and `len(idxRadarDomain)` are both the number of rows
of `rainfield`; the source checks `0 <= len < sys.maxsize` for both, where
`sys.maxsize = 2^63 - 1`, so the two `len` guards reduce to `rows < 2^63 - 1`
(`0 <= len` always holds).  When the guard fails, the source prints a message and
returns `-1`. -/
def compute_war (rainfield : Mat ℚ) (rainThreshold noData : ℚ) : ℚ :=
  let idxRainCount := countEntries rainfield fun x => decide (rainThreshold ≤ x)
  let idxRadarDomainCount := countEntries rainfield fun x => decide (noData + 1 < x)
  if rainfield.rows < 2 ^ 63 - 1 ∧ idxRainCount ≤ idxRadarDomainCount ∧
      0 < idxRadarDomainCount then
    100 * (idxRainCount : ℚ) / (idxRadarDomainCount : ℚ)
  else
    -1

/-- The WAR value claimed by the spec: 100 × (number of radar-domain pixels at or
above the rain threshold) / (number of radar-domain pixels).  Modelled from the
spec wording, for comparison with `compute_war`. -/
def war_claimed (rainfield : Mat ℚ) (rainThreshold noData : ℚ) : ℚ :=
  100 * (countEntries rainfield fun x => decide (rainThreshold ≤ x ∧ noData + 1 < x) : ℚ) /
    (countEntries rainfield fun x => decide (noData + 1 < x) : ℚ)

/-- Counting with a pointwise-equal predicate gives the same count. -/
theorem listCountP_congr {α : Type} {p q : α → Bool} :
    ∀ l : List α, (∀ x, p x = q x) → l.countP p = l.countP q := by
  intro l h
  induction l with
  | nil => rfl
  | cons a t ih =>
    rw [List.countP_cons, List.countP_cons, h, ih]

/-- Counting is monotone in the predicate. -/
theorem listCountP_mono {α : Type} {p q : α → Bool} :
    ∀ l : List α, (∀ x, p x = true → q x = true) → l.countP p ≤ l.countP q := by
  intro l h
  induction l with
  | nil => exact le_refl _
  | cons a t ih =>
    rw [List.countP_cons, List.countP_cons]
    by_cases hp : p a = true
    · rw [hp, h a hp]
      omega
    · have : (if p a = true then 1 else 0) = 0 := by simp [hp]
      rw [this]
      split <;> omega

/-- Counting a pointwise-equal predicate over a matrix gives the same count. -/
theorem countEntries_congr (m : Mat ℚ) {p q : ℚ → Bool} (h : ∀ x, p x = q x) :
    countEntries m p = countEntries m q :=
  listCountP_congr (entriesList m) h

/-- Matrix entry counting is monotone in the predicate. -/
theorem countEntries_mono (m : Mat ℚ) {p q : ℚ → Bool} (h : ∀ x, p x = true → q x = true) :
    countEntries m p ≤ countEntries m q :=
  listCountP_mono (entriesList m) h

def warCounterexampleField : Mat ℚ := mkMat [[0, 5]]

/-- C2 counterexample: for `rainfield = [[0, 5]]`, `rainThreshold = -5`,
`noData = 0` the radar domain is nonempty (one pixel, the 5), and the claimed
formula gives 100, yet `compute_war` returns -1: the guard
`np.sum(idxRain) <= np.sum(idxRadarDomain)` fails because all 2 pixels are ≥ -5
while only 1 pixel exceeds `noData + 1`. -/
theorem compute_war_claim_false :
    compute_war warCounterexampleField (-5) 0 = -1 ∧
      0 < countEntries warCounterexampleField (fun x => decide ((0 : ℚ) + 1 < x)) ∧
      war_claimed warCounterexampleField (-5) 0 = 100 := by
  have he : entriesList warCounterexampleField = [0, 5] := rfl
  have hrain : countEntries warCounterexampleField (fun x => decide ((-5 : ℚ) ≤ x)) = 2 := by
    norm_num [countEntries, he, List.countP_cons]
  have hdom : countEntries warCounterexampleField (fun x => decide ((0 : ℚ) + 1 < x)) = 1 := by
    norm_num [countEntries, he, List.countP_cons]
  have hboth : countEntries warCounterexampleField
      (fun x => decide ((-5 : ℚ) ≤ x ∧ (0 : ℚ) + 1 < x)) = 1 := by
    norm_num [countEntries, he, List.countP_cons]
  refine ⟨?_, ?_, ?_⟩
  · simp only [compute_war]
    rw [hrain, hdom]
    norm_num
  · rw [hdom]
    norm_num
  · simp only [war_claimed]
    rw [hboth, hdom]
    norm_num

/-- C2 amended: when the radar domain is nonempty AND additionally the total
count of pixels at or above the rain threshold does not exceed the radar-domain
count (the guard of the source), `compute_war` returns
100 × (number of radar-domain pixels at or above the rain threshold) /
(number of radar-domain pixels).  (Under that guard the source's numerator —
which counts threshold exceedances over the whole array — provably coincides
with the domain-restricted count of the claim.) -/
theorem compute_war_amended (f : Mat ℚ) (t nd : ℚ)
    (hlen : f.rows < 2 ^ 63 - 1)
    (hle : countEntries f (fun x => decide (t ≤ x)) ≤
      countEntries f (fun x => decide (nd + 1 < x)))
    (hpos : 0 < countEntries f (fun x => decide (nd + 1 < x))) :
    compute_war f t nd = war_claimed f t nd := by
  have hnum : countEntries f (fun x => decide (t ≤ x)) =
      countEntries f (fun x => decide (t ≤ x ∧ nd + 1 < x)) := by
    rcases le_or_lt t (nd + 1) with hc | hc
    · -- threshold below the domain cutoff: every domain pixel is a rain pixel,
      -- and the guard forces the two counts to coincide
      have hdr : countEntries f (fun x => decide (nd + 1 < x)) ≤
          countEntries f (fun x => decide (t ≤ x)) := by
        refine countEntries_mono f fun x hx => ?_
        simp only [decide_eq_true_eq] at hx ⊢
        exact le_of_lt (lt_of_le_of_lt hc hx)
      have heq : countEntries f (fun x => decide (t ≤ x)) =
          countEntries f (fun x => decide (nd + 1 < x)) := le_antisymm hle hdr
      have hboth : countEntries f (fun x => decide (t ≤ x ∧ nd + 1 < x)) =
          countEntries f (fun x => decide (nd + 1 < x)) := by
        refine countEntries_congr f fun x => ?_
        by_cases hx : nd + 1 < x
        · have : t ≤ x := le_of_lt (lt_of_le_of_lt hc hx)
          simp [hx, this]
        · simp [hx]
      rw [heq, hboth]
    · -- threshold above the domain cutoff: rain pixels are automatically domain pixels
      refine countEntries_congr f fun x => ?_
      by_cases hx : t ≤ x
      · have : nd + 1 < x := lt_of_lt_of_le hc hx
        simp [hx, this]
      · simp [hx]
  unfold compute_war war_claimed
  rw [if_pos ⟨hlen, hle, hpos⟩, hnum]

def warAmendedField : Mat ℚ := mkMat [[0, 5]]

/-- Witness for `compute_war_amended` at `rainfield = [[0, 5]]`, threshold 5,
noData 0. -/
theorem compute_war_amended_witness :
    (warAmendedField.rows < 2 ^ 63 - 1 ∧
      countEntries warAmendedField (fun x => decide ((5 : ℚ) ≤ x)) ≤
        countEntries warAmendedField (fun x => decide ((0 : ℚ) + 1 < x)) ∧
      0 < countEntries warAmendedField (fun x => decide ((0 : ℚ) + 1 < x))) ∧
    compute_war warAmendedField 5 0 = war_claimed warAmendedField 5 0 := by
  have he : entriesList warAmendedField = [0, 5] := rfl
  have hrain : countEntries warAmendedField (fun x => decide ((5 : ℚ) ≤ x)) = 1 := by
    norm_num [countEntries, he, List.countP_cons]
  have hdom : countEntries warAmendedField (fun x => decide ((0 : ℚ) + 1 < x)) = 1 := by
    norm_num [countEntries, he, List.countP_cons]
  have h1 : warAmendedField.rows < 2 ^ 63 - 1 := by norm_num [warAmendedField, mkMat]
  have h2 : countEntries warAmendedField (fun x => decide ((5 : ℚ) ≤ x)) ≤
      countEntries warAmendedField (fun x => decide ((0 : ℚ) + 1 < x)) := by
    rw [hrain, hdom]
  have h3 : 0 < countEntries warAmendedField (fun x => decide ((0 : ℚ) + 1 < x)) := by
    rw [hdom]
    norm_num
  exact ⟨⟨h1, h2, h3⟩, compute_war_amended warAmendedField 5 0 h1 h2 h3⟩

/-- C9: when no pixel exceeds `noData + 1` the guard `np.sum(idxRadarDomain) > 0`
fails and `compute_war` returns -1.  The source only builds fresh boolean arrays
(`rainfield >= rainThreshold`, `rainfield > noData + 1`) and never writes into
`rainfield`, so its inputs are left unchanged, which the pure embedding
reflects. -/
theorem compute_war_noDomain (f : Mat ℚ) (t nd : ℚ)
    (h : countEntries f (fun x => decide (nd + 1 < x)) = 0) :
    compute_war f t nd = -1 := by
  unfold compute_war
  rw [if_neg]
  intro hc
  exact absurd (h ▸ hc.2.2) (lt_irrefl 0)

def warEmptyDomainField : Mat ℚ := mkMat [[0]]

/-- Witness for `compute_war_noDomain` at `rainfield = [[0]]`, `noData = 0`:
no pixel is above 1. -/
theorem compute_war_noDomain_witness :
    countEntries warEmptyDomainField (fun x => decide ((0 : ℚ) + 1 < x)) = 0 ∧
      compute_war warEmptyDomainField 7 0 = -1 := by
  have he : entriesList warEmptyDomainField = [0] := rfl
  have hdom : countEntries warEmptyDomainField (fun x => decide ((0 : ℚ) + 1 < x)) = 0 := by
    norm_num [countEntries, he, List.countP_cons]
  exact ⟨hdom, compute_war_noDomain warEmptyDomainField 7 0 hdom⟩

/-! ### update_mean

Source: src/pymodules/stat_tools_attractor.py lines 681–697. -/

/-- Python semantics of an augmented assignment `x += e` on a function-local
name: if the local has not been assigned yet, reading it raises
UnboundLocalError. -/
def pyAugAssign (cur : Option ℚ) (incr : ℚ) : Except String ℚ :=
  match cur with
  | none => Except.error "UnboundLocalError: local variable newMean referenced before assignment"
  | some x => Except.ok (x + incr)

/-- `update_mean(data, newSample)`.  `oldMean = np.nanmean(data)` and
`n = np.sum(~np.isnan(data))` (rational entries are never NaN, so `n` is the
entry count); then `n += 1`, `delta = newSample - oldMean`, and
`newMean += delta/n` reads the local `newMean`, which was never assigned.
The `if n < 2: return float('nan')` tail is unreachable (the augmented
assignment raises first); `float('nan')` is modelled there by the junk value 0. -/
def update_mean (data : Mat ℚ) (newSample : ℚ) : Except String ℚ :=
  let oldMean := matMean data
  let n : ℚ := (matCount data : ℚ) + 1
  let delta := newSample - oldMean
  match pyAugAssign none (delta / n) with
  | Except.error e => Except.error e
  | Except.ok newMean => if n < 2 then Except.ok 0 else Except.ok newMean

/-- C10: `update_mean` never returns a value: for every input it raises
UnboundLocalError, because the local `newMean` is read by `newMean += delta/n`
before it is ever assigned. -/
theorem update_mean_always_raises (data : Mat ℚ) (newSample : ℚ) :
    update_mean data newSample =
      Except.error "UnboundLocalError: local variable newMean referenced before assignment" :=
  rfl

/-! ### compute_fft_anisotropy

Source: src/pymodules/stat_tools_attractor.py lines 199–330, with the image
moments from `_raw_moment` (638–642) and `_intertial_axis` (644–655).

External calls taken as parameters: `scipy.ndimage.gaussian_filter` (the
`gaussian_filter` argument below) and `skimage.measure.label` (the `lbl`
argument); every theorem quantifies over them, since no claim depends on
their internals. -/

/-- Insertion of an element into a sorted list (ascending). -/
def insertSorted (x : ℚ) : List ℚ → List ℚ
  | [] => [x]
  | y :: ys => if x ≤ y then x :: y :: ys else y :: insertSorted x ys

/-- Ascending insertion sort, used to take order statistics. -/
def sortAsc : List ℚ → List ℚ
  | [] => []
  | x :: xs => insertSorted x (sortAsc xs)

/-- `np.percentile` / `np.nanpercentile` with the default linear interpolation:
for a sample of size n, the q-th percentile sits at fractional position
h = (q/100)·(n−1) of the ascending order statistics and is interpolated
linearly between the two neighbouring order statistics.  Rational entries are
never NaN, so percentile and nanpercentile agree.  An empty list yields the
junk value 0 (numpy warns and returns nan, and the source then fails later —
not a normal return). -/
def np_percentile (xs : List ℚ) (q : ℚ) : ℚ :=
  let s := sortAsc xs
  let n := s.length
  let h : ℚ := q / 100 * ((n : ℚ) - 1)
  let i : ℕ := (⌊h⌋).toNat
  let lo := s.getD i 0
  let hi := s.getD (i + 1) lo
  lo + (h - (⌊h⌋ : ℚ)) * (hi - lo)

/-- Minimum entry of an array (`np.min`); empty arrays give the junk value 0
(numpy raises there). -/
def matMin (m : Mat ℚ) : ℚ :=
  ((entriesList m).tail).foldl min ((entriesList m).headD 0)

/-- Half-size of the sub-domain: the default `fftSizeSub = -1` maps to
`psd2d.shape[0]/2` (Python floor division of the even row count). -/
def subHalfSize (psd2d : Mat ℚ) (fftSizeSub : ℤ) : ℕ :=
  if fftSizeSub = -1 then psd2d.rows / 2 else fftSizeSub.toNat

/-- Central sub-domain
`psd2d[fftMiddleY-fftSizeSub:fftMiddleY+fftSizeSub, fftMiddleX-fftSizeSub:fftMiddleX+fftSizeSub]`
with `fftMiddleY = rows/2`, `fftMiddleX = cols/2`.  The slice is written as an
index shift; it agrees with Python slicing whenever `s ≤ rows/2` and
`s ≤ cols/2` (otherwise numpy's clamped slices produce a sub-array of a
different shape and the source crashes later on a shape mismatch — not a
normal return). -/
def subCenter (psd2d : Mat ℚ) (s : ℕ) : Mat ℚ :=
  ⟨2 * s, 2 * s, fun i j => psd2d.v (psd2d.rows / 2 - s + i) (psd2d.cols / 2 - s + j)⟩

/-- The circular-mask membership test of `np.ogrid[-s:s, -s:s]`:
row offset y = i − s, column offset x = j − s, kept when x² + y² ≤ radius². -/
def inCircle (s : ℕ) (radius : ℤ) (i j : ℕ) : Prop :=
  ((j : ℤ) - (s : ℤ)) ^ 2 + ((i : ℤ) - (s : ℤ)) ^ 2 ≤ radius ^ 2

instance (s : ℕ) (radius : ℤ) (i j : ℕ) : Decidable (inCircle s radius i j) := by
  unfold inCircle
  infer_instance

/-- `psd2dsub[~mask] = 0.0` for `radius != -1`: entries outside the circle are
zeroed in the sub-domain. -/
def maskSub (sub : Mat ℚ) (s : ℕ) (radius : ℤ) : Mat ℚ :=
  if radius = -1 then sub
  else ⟨sub.rows, sub.cols, fun i j => if inCircle s radius i j then sub.v i j else 0⟩

/-- The post-state of the CALLER's array `psd2d`: `psd2dsub` is a numpy view of
`psd2d`, so the write `psd2dsub[~mask] = 0.0` (executed when `radius != -1`)
zeroes the corresponding entries of `psd2d` itself.  No other statement of the
source writes through a view of `psd2d` (`np.rot90` only re-binds the local
name, `gaussian_filter` returns a fresh array, `.copy()` copies, and the
subtraction creating `psd2dsubSmoothShifted` allocates a new array). -/
def psdAfterMaskWrite (psd2d : Mat ℚ) (s : ℕ) (radius : ℤ) : Mat ℚ :=
  if radius = -1 then psd2d
  else
    ⟨psd2d.rows, psd2d.cols, fun i j =>
      if psd2d.rows / 2 - s ≤ i ∧ i < psd2d.rows / 2 - s + 2 * s ∧
          psd2d.cols / 2 - s ≤ j ∧ j < psd2d.cols / 2 - s + 2 * s ∧
          ¬inCircle s radius (i - (psd2d.rows / 2 - s)) (j - (psd2d.cols / 2 - s)) then 0
      else psd2d.v i j⟩

/-- `np.rot90` (a single 90° counterclockwise rotation):
`rot90(A)[i, j] = A[j, n-1-i]`. -/
def rot90 (m : Mat ℚ) : Mat ℚ :=
  ⟨m.cols, m.rows, fun i j => m.v j (m.cols - 1 - i)⟩

/-- The sub-domain after circular masking and the optional 90° rotation, i.e.
the local `psd2dsub` right before the smoothing step (also the first return
value of the source). -/
def anisotropySub (psd2d : Mat ℚ) (s : ℕ) (rotation : Bool) (radius : ℤ) : Mat ℚ :=
  let sub := maskSub (subCenter psd2d s) s radius
  if rotation then rot90 sub else sub

/-- `psd2dsubSmooth`: Gaussian smoothing when `sigma > 0`, else a plain copy. -/
def anisotropySmooth (gaussian_filter : ℚ → Mat ℚ → Mat ℚ) (psd2d : Mat ℚ) (s : ℕ)
    (rotation : Bool) (radius : ℤ) (sigma : ℚ) : Mat ℚ :=
  let sub := anisotropySub psd2d s rotation radius
  if 0 < sigma then gaussian_filter sigma sub else sub

/-- `percZero`, the shift value: for `percentileZero > 0` the
`percentileZero`-th conditional percentile of the smoothed values greater than
`minThresholdCondition = 0.01`, otherwise the minimum of the smoothed array.
The source's dead branch `if percZero == np.nan: percZero = 0.0` is omitted
(in Python `x == np.nan` is always False).  Finally, a value strictly between
0 and `autocorrThreshold = 0.2` is replaced by 0.2. -/
def percZeroOf (smooth : Mat ℚ) (percentileZero : ℚ) : ℚ :=
  let minThresholdCondition : ℚ := 1 / 100
  let p0 :=
    if 0 < percentileZero then
      np_percentile ((entriesList smooth).filter fun x => decide (minThresholdCondition < x))
        percentileZero
    else matMin smooth
  let autocorrThreshold : ℚ := 1 / 5
  if 0 < p0 ∧ p0 < autocorrThreshold then autocorrThreshold else p0

/-- `psd2dsubSmoothShifted`: subtract `percZero`, then zero the negative
entries (`psd2dsubSmoothShifted[psd2dsubSmoothShifted < 0] = 0.0`). -/
def shiftedOf (smooth : Mat ℚ) (percentileZero : ℚ) : Mat ℚ :=
  let pz := percZeroOf smooth percentileZero
  ⟨smooth.rows, smooth.cols, fun i j => max (smooth.v i j - pz) 0⟩

/-- `psd2dsubSmoothShifted_bin = np.uint8(psd2dsubSmoothShifted > minThresholdCondition)`. -/
def binOf (shifted : Mat ℚ) : Mat ℕ :=
  ⟨shifted.rows, shifted.cols, fun i j => if 1 / 100 < shifted.v i j then 1 else 0⟩

/-- The segmentation mask: label the binarized image with
`measure.label(·, background=0)` (the parameter `lbl`), read the label of the
central pixel `labelsImage[shape[0]/2, shape[1]/2]`, and keep the polygon
carrying that label. -/
def segMaskOf (lbl : Mat ℕ → Mat ℤ) (shifted : Mat ℚ) : Mat ℚ :=
  let labelsImage := lbl (binOf shifted)
  let labelCenter := labelsImage.v (labelsImage.rows / 2) (labelsImage.cols / 2)
  ⟨labelsImage.rows, labelsImage.cols, fun i j =>
    if labelsImage.v i j = labelCenter then 1 else 0⟩

/-- Elementwise product of two arrays of the same shape. -/
def matHadamard (x y : Mat ℚ) : Mat ℚ :=
  ⟨x.rows, x.cols, fun i j => x.v i j * y.v i j⟩

/-- `psd2dsubSmoothShifted * mask`: the thresholded, segmented sub-domain array
handed to `_intertial_axis`. -/
def anisotropyMaskedData (gaussian_filter : ℚ → Mat ℚ → Mat ℚ) (lbl : Mat ℕ → Mat ℤ)
    (psd2d : Mat ℚ) (s : ℕ) (percentileZero : ℚ) (rotation : Bool) (radius : ℤ)
    (sigma : ℚ) : Mat ℚ :=
  let smooth := anisotropySmooth gaussian_filter psd2d s rotation radius sigma
  let shifted := shiftedOf smooth percentileZero
  matHadamard shifted (segMaskOf lbl shifted)

/-- `_raw_moment(data, iord, jord)`: with `y, x = np.mgrid[:nrows, :ncols]`
(`x` the column index, `y` the row index), the sum of
`data * x**iord * y**jord`. -/
def raw_moment (data : Mat ℚ) (iord jord : ℕ) : ℚ :=
  ∑ r in Finset.range data.rows, ∑ c in Finset.range data.cols,
    data.v r c * (c : ℚ) ^ iord * (r : ℚ) ^ jord

/-- A 2×2 symmetric matrix `[[a, b], [b, c]]` (the covariance returned by
`_intertial_axis`). -/
structure Cov2 where
  a : ℚ
  b : ℚ
  c : ℚ

/-- `_intertial_axis(data)` (the source's spelling): x-mean, y-mean and the
inertial covariance matrix from raw image moments.  When `data.sum() = 0` the
ℚ-division yields the junk value 0 where numpy produces nan (and the source
then crashes in `np.linalg.eigh` — not a normal return). -/
def intertial_axis (data : Mat ℚ) : ℚ × ℚ × Cov2 :=
  let data_sum := matSum data
  let m10 := raw_moment data 1 0
  let m01 := raw_moment data 0 1
  let x_bar := m10 / data_sum
  let y_bar := m01 / data_sum
  let u11 := (raw_moment data 1 1 - x_bar * m01) / data_sum
  let u20 := (raw_moment data 2 0 - x_bar * m10) / data_sum
  let u02 := (raw_moment data 0 2 - y_bar * m01) / data_sum
  (x_bar, y_bar, ⟨u20, u11, u02⟩)

/-- `np.linalg.eigh` on `[[a, b], [b, c]]`: the two (real) eigenvalues in
ascending order, in closed form. -/
noncomputable def eigh2_vals (s : Cov2) : ℝ × ℝ :=
  ((((s.a : ℝ) + (s.c : ℝ)) - Real.sqrt (((s.a : ℝ) - (s.c : ℝ)) ^ 2 + 4 * (s.b : ℝ) ^ 2)) / 2,
   (((s.a : ℝ) + (s.c : ℝ)) + Real.sqrt (((s.a : ℝ) - (s.c : ℝ)) ^ 2 + 4 * (s.b : ℝ) ^ 2)) / 2)

/-- An eigenvector of `[[a, b], [b, c]]` for the eigenvalue `lam`, up to
LAPACK's normalization and sign (the source only consumes the component
ratio `eigvecs[0,i]/eigvecs[1,i]`, which is scaling-invariant). -/
noncomputable def eigh2_vec (s : Cov2) (lam : ℝ) : ℝ × ℝ :=
  if s.b = 0 then (if lam = (s.a : ℝ) then (1, 0) else (0, 1))
  else ((s.b : ℝ), lam - (s.a : ℝ))

/-- `x` is an eigenvalue of the symmetric 2×2 matrix `[[a, b], [b, c]]`:
the characteristic polynomial `det([[a-x, b], [b, c-x]])` vanishes. -/
def IsEigenvalueOf (s : Cov2) (x : ℝ) : Prop :=
  ((s.a : ℝ) - x) * ((s.c : ℝ) - x) - (s.b : ℝ) * (s.b : ℝ) = 0

/-- The tuple returned by `compute_fft_anisotropy`, plus (`psd2dState`) the
post-state of the caller's `psd2d` array, which the source can mutate through
a view. -/
structure AnisotropyResult where
  psd2dState : Mat ℚ
  psd2dsub : Mat ℚ
  eccentricity : ℝ
  orientation : ℝ
  xbar : ℚ
  ybar : ℚ
  eigvals : ℝ × ℝ
  eigvecs : (ℝ × ℝ) × (ℝ × ℝ)
  percZero : ℚ
  psd2dsubSmooth : Mat ℚ

/-- `compute_fft_anisotropy(psd2d, fftSizeSub, percentileZero, rotation, radius,
sigma)`.  An odd-sized input triggers `sys.exit(1)`, modelled as an error.
`idxMax = np.argmin(eigvals)` is index 0 of the ascending `eigh` pair, and the
orientation is `np.degrees(math.atan(eigvecs[0,idxMax]/eigvecs[1,idxMax]))`.
The eccentricity is `math.sqrt(1 - np.min(eigvals)/np.max(eigvals))`. -/
noncomputable def compute_fft_anisotropy (gaussian_filter : ℚ → Mat ℚ → Mat ℚ)
    (lbl : Mat ℕ → Mat ℤ) (psd2d : Mat ℚ) (fftSizeSub : ℤ) (percentileZero : ℚ)
    (rotation : Bool) (radius : ℤ) (sigma : ℚ) : Except String AnisotropyResult :=
  let s := subHalfSize psd2d fftSizeSub
  if psd2d.rows % 2 ≠ 0 ∨ psd2d.cols % 2 ≠ 0 then
    Except.error "Error in compute_fft_anisotropy: please provide an even sized 2d FFT spectrum."
  else
    let psd2dsub := anisotropySub psd2d s rotation radius
    let psd2dsubSmooth := anisotropySmooth gaussian_filter psd2d s rotation radius sigma
    let percZero := percZeroOf psd2dsubSmooth percentileZero
    let masked := anisotropyMaskedData gaussian_filter lbl psd2d s percentileZero rotation radius sigma
    let xyc := intertial_axis masked
    let cov := xyc.2.2
    let eigvals := eigh2_vals cov
    let eccentricity := Real.sqrt (1 - min eigvals.1 eigvals.2 / max eigvals.1 eigvals.2)
    let vmin := eigh2_vec cov eigvals.1
    let orientation := Real.arctan (vmin.1 / vmin.2) * (180 / Real.pi)
    Except.ok ⟨psdAfterMaskWrite psd2d s radius, psd2dsub, eccentricity, orientation,
      xyc.1, xyc.2.1, eigvals, (vmin, eigh2_vec cov eigvals.2), percZero, psd2dsubSmooth⟩

/-- The closed-form `eigh` pair is ascending. -/
theorem eigh2_vals_le (s : Cov2) : (eigh2_vals s).1 ≤ (eigh2_vals s).2 := by
  unfold eigh2_vals
  have h := Real.sqrt_nonneg (((s.a : ℝ) - (s.c : ℝ)) ^ 2 + 4 * (s.b : ℝ) ^ 2)
  dsimp only
  linarith

/-- The closed-form `eigh` pair consists of exactly the eigenvalues of the
2×2 symmetric matrix. -/
theorem eigh2_vals_charPoly (s : Cov2) (x : ℝ) :
    IsEigenvalueOf s x ↔ x = (eigh2_vals s).1 ∨ x = (eigh2_vals s).2 := by
  have hD : (0 : ℝ) ≤ ((s.a : ℝ) - (s.c : ℝ)) ^ 2 + 4 * (s.b : ℝ) ^ 2 := by positivity
  have hsq := Real.sq_sqrt hD
  unfold IsEigenvalueOf eigh2_vals
  dsimp only
  constructor
  · intro h
    have hfac : (x - (((s.a : ℝ) + (s.c : ℝ)) -
          Real.sqrt (((s.a : ℝ) - (s.c : ℝ)) ^ 2 + 4 * (s.b : ℝ) ^ 2)) / 2) *
        (x - (((s.a : ℝ) + (s.c : ℝ)) +
          Real.sqrt (((s.a : ℝ) - (s.c : ℝ)) ^ 2 + 4 * (s.b : ℝ) ^ 2)) / 2) = 0 := by
      rw [pow_two] at hsq
      nlinarith [hsq, h]
    rcases mul_eq_zero.mp hfac with h1 | h1
    · exact Or.inl (by linarith [sub_eq_zero.mp h1])
    · exact Or.inr (by linarith [sub_eq_zero.mp h1])
  · intro h
    rw [pow_two] at hsq
    rcases h with h | h <;> subst h <;> nlinarith [hsq]

/-- C1: for every even-sized psd2d on which compute_fft_anisotropy returns
normally (and any gaussian filter, labelling routine and optional arguments),
the returned eccentricity equals sqrt(1 − λmin/λmax), where λmin ≤ λmax are
exactly the eigenvalues of the inertial covariance matrix computed by
`_intertial_axis` from the thresholded, segmented sub-domain array
`psd2dsubSmoothShifted * mask`. -/
theorem compute_fft_anisotropy_eccentricity (gaussian_filter : ℚ → Mat ℚ → Mat ℚ)
    (lbl : Mat ℕ → Mat ℤ) (psd2d : Mat ℚ) (fftSizeSub : ℤ) (percentileZero : ℚ)
    (rotation : Bool) (radius : ℤ) (sigma : ℚ)
    (hr : psd2d.rows % 2 = 0) (hc : psd2d.cols % 2 = 0) :
    ∃ res, compute_fft_anisotropy gaussian_filter lbl psd2d fftSizeSub percentileZero
        rotation radius sigma = Except.ok res ∧
      ∃ lmin lmax : ℝ, lmin ≤ lmax ∧
        (∀ x : ℝ, IsEigenvalueOf
            (intertial_axis (anisotropyMaskedData gaussian_filter lbl psd2d
              (subHalfSize psd2d fftSizeSub) percentileZero rotation radius sigma)).2.2 x ↔
          x = lmin ∨ x = lmax) ∧
        res.eccentricity = Real.sqrt (1 - lmin / lmax) := by
  unfold compute_fft_anisotropy
  rw [if_neg (by simp [hr, hc])]
  set cov := (intertial_axis (anisotropyMaskedData gaussian_filter lbl psd2d
    (subHalfSize psd2d fftSizeSub) percentileZero rotation radius sigma)).2.2 with hcov
  refine ⟨_, rfl, (eigh2_vals cov).1, (eigh2_vals cov).2, eigh2_vals_le cov,
    fun x => eigh2_vals_charPoly cov x, ?_⟩
  have h12 := eigh2_vals_le cov
  simp only [min_eq_left h12, max_eq_right h12]

def gfId : ℚ → Mat ℚ → Mat ℚ := fun _ m => m

def lblZero : Mat ℕ → Mat ℤ := fun m => ⟨m.rows, m.cols, fun _ _ => 0⟩

def psdEven : Mat ℚ := mkMat [[1, 2], [3, 4]]

/-- Witness for `compute_fft_anisotropy_eccentricity` on a concrete 2×2 input
with the identity as smoothing filter and a constant labelling. -/
theorem compute_fft_anisotropy_eccentricity_witness :
    (psdEven.rows % 2 = 0 ∧ psdEven.cols % 2 = 0) ∧
      ∃ res, compute_fft_anisotropy gfId lblZero psdEven (-1) (-1) true (-1) (-1) =
          Except.ok res ∧
        ∃ lmin lmax : ℝ, lmin ≤ lmax ∧
          (∀ x : ℝ, IsEigenvalueOf
              (intertial_axis (anisotropyMaskedData gfId lblZero psdEven
                (subHalfSize psdEven (-1)) (-1) true (-1) (-1))).2.2 x ↔
            x = lmin ∨ x = lmax) ∧
          res.eccentricity = Real.sqrt (1 - lmin / lmax) :=
  ⟨⟨rfl, rfl⟩,
    compute_fft_anisotropy_eccentricity gfId lblZero psdEven (-1) (-1) true (-1) (-1) rfl rfl⟩

/-- C4 amended (the holding part): with the default `radius = -1` the circular
mask is skipped and `compute_fft_anisotropy` leaves its input array unchanged,
for every combination of the remaining optional arguments. -/
theorem compute_fft_anisotropy_pure_default_radius (gaussian_filter : ℚ → Mat ℚ → Mat ℚ)
    (lbl : Mat ℕ → Mat ℤ) (psd2d : Mat ℚ) (fftSizeSub : ℤ) (percentileZero : ℚ)
    (rotation : Bool) (sigma : ℚ)
    (hr : psd2d.rows % 2 = 0) (hc : psd2d.cols % 2 = 0) :
    ∃ res, compute_fft_anisotropy gaussian_filter lbl psd2d fftSizeSub percentileZero
        rotation (-1) sigma = Except.ok res ∧ res.psd2dState = psd2d := by
  unfold compute_fft_anisotropy
  rw [if_neg (by simp [hr, hc])]
  exact ⟨_, rfl, by unfold psdAfterMaskWrite; rw [if_pos rfl]⟩

/-- Witness for `compute_fft_anisotropy_pure_default_radius` on a concrete
2×2 input. -/
theorem compute_fft_anisotropy_pure_default_radius_witness :
    (psdEven.rows % 2 = 0 ∧ psdEven.cols % 2 = 0) ∧
      ∃ res, compute_fft_anisotropy gfId lblZero psdEven (-1) 50 false (-1) 2 =
          Except.ok res ∧ res.psd2dState = psdEven :=
  ⟨⟨rfl, rfl⟩,
    compute_fft_anisotropy_pure_default_radius gfId lblZero psdEven (-1) 50 false 2 rfl rfl⟩

def psdOnes4 : Mat ℚ := mkMat [[1, 1, 1, 1], [1, 1, 1, 1], [1, 1, 1, 1], [1, 1, 1, 1]]

/-- C4 counterexample: on the all-ones 4×4 array with `radius = 1` (an
admissible optional-argument combination, `radius != -1`), the circular-mask
assignment writes through the numpy view and zeroes entry (0,0) of the INPUT
array `psd2d`: after the call the caller's array differs from the original. -/
theorem compute_fft_anisotropy_mutates_input :
    (compute_fft_anisotropy gfId lblZero psdOnes4 (-1) (-1) true 1 (-1)).map
        (fun r => r.psd2dState.v 0 0) = Except.ok 0 ∧
      psdOnes4.v 0 0 = 1 := by
  constructor
  · rfl
  · rfl

/-- C5 amended: for `percentileZero > 0` the shift threshold `percZero` is the
`percentileZero`-th conditional percentile of the smoothed values greater than
0.01 — except that a percentile lying strictly between 0 and 0.2 is raised to
0.2 — and, after Gaussian smoothing and before the connected-component
segmentation (which consumes `shiftedOf` through `binOf`/`segMaskOf`), every
pixel below that effective threshold becomes 0 in the shifted array while every
pixel at or above it becomes its value minus the effective threshold. -/
theorem shiftedOf_amended (m : Mat ℚ) (p : ℚ) (hp : 0 < p) :
    (percZeroOf m p =
      (if 0 < np_percentile ((entriesList m).filter fun x => decide ((1 : ℚ) / 100 < x)) p ∧
          np_percentile ((entriesList m).filter fun x => decide ((1 : ℚ) / 100 < x)) p < 1 / 5
        then 1 / 5
        else np_percentile ((entriesList m).filter fun x => decide ((1 : ℚ) / 100 < x)) p)) ∧
    ∀ i j, (shiftedOf m p).v i j =
      if m.v i j < percZeroOf m p then 0 else m.v i j - percZeroOf m p := by
  constructor
  · simp only [percZeroOf]
    rw [if_pos hp]
  · intro i j
    show max (m.v i j - percZeroOf m p) 0 = _
    rcases lt_or_le (m.v i j) (percZeroOf m p) with h | h
    · rw [if_pos h, max_eq_right (by linarith)]
    · rw [if_neg (not_lt.mpr h), max_eq_left (by linarith)]

def smoothC5 : Mat ℚ := mkMat [[1/20, 3/20], [1/20, 3/20]]

/-- Witness for `shiftedOf_amended` at a concrete smoothed array and
`percentileZero = 50`. -/
theorem shiftedOf_amended_witness :
    (0 : ℚ) < 50 ∧
      ((percZeroOf smoothC5 50 =
        (if 0 < np_percentile ((entriesList smoothC5).filter fun x =>
              decide ((1 : ℚ) / 100 < x)) 50 ∧
            np_percentile ((entriesList smoothC5).filter fun x =>
              decide ((1 : ℚ) / 100 < x)) 50 < 1 / 5
          then 1 / 5
          else np_percentile ((entriesList smoothC5).filter fun x =>
              decide ((1 : ℚ) / 100 < x)) 50)) ∧
      ∀ i j, (shiftedOf smoothC5 50).v i j =
        if smoothC5.v i j < percZeroOf smoothC5 50 then 0
        else smoothC5.v i j - percZeroOf smoothC5 50) :=
  ⟨by norm_num, shiftedOf_amended smoothC5 50 (by norm_num)⟩

/-- C5 counterexample: on the smoothed 2×2 sub-domain
[[0.05, 0.15], [0.05, 0.15]] with `percentileZero = 50`, the conditional 50th
percentile of the values greater than 0.01 is 0.1, so by the claim the pixel
0.15 (at or above the percentile) should become 0.15 − 0.1 = 0.05 in the
shifted array; the code instead raises the threshold to 0.2 and the pixel
becomes 0. -/
theorem shiftedOf_claim_false :
    np_percentile ((entriesList smoothC5).filter fun x => decide ((1 : ℚ) / 100 < x)) 50 =
        1 / 10 ∧
      (shiftedOf smoothC5 50).v 0 1 = 0 ∧
      smoothC5.v 0 1 -
        np_percentile ((entriesList smoothC5).filter fun x => decide ((1 : ℚ) / 100 < x)) 50 =
        1 / 20 := by
  have he : ((entriesList smoothC5).filter fun x => decide ((1 : ℚ) / 100 < x)) =
      [1/20, 3/20, 1/20, 3/20] := by
    norm_num [entriesList, smoothC5, mkMat, List.range_succ, List.filter]
  have hsort : sortAsc [1/20, 3/20, 1/20, 3/20] = [1/20, 1/20, 3/20, 3/20] := by
    norm_num [sortAsc, insertSorted]
  have hperc : np_percentile ((entriesList smoothC5).filter fun x =>
      decide ((1 : ℚ) / 100 < x)) 50 = 1 / 10 := by
    rw [he]
    simp only [np_percentile]
    rw [hsort]
    norm_num
  have hpz : percZeroOf smoothC5 50 = 1 / 5 := by
    simp only [percZeroOf]
    rw [if_pos (by norm_num : (0 : ℚ) < 50), hperc]
    norm_num
  refine ⟨hperc, ?_, ?_⟩
  · show max (smoothC5.v 0 1 - percZeroOf smoothC5 50) 0 = 0
    rw [hpz]
    have hv : smoothC5.v 0 1 = 3 / 20 := by norm_num [smoothC5, mkMat]
    rw [hv]
    norm_num
  · rw [hperc]
    norm_num [smoothC5, mkMat]

/-! ### generate_wavelet_noise

Source: src/pymodules/stat_tools_attractor.py lines 737–802 with `to_zscores`
(822–833).  `pywt.wavedec2`, `pywt.waverec2` and `np.random.randn` are external
(wavelet transforms and the random source) and are taken as parameters:
`wavedec2` maps a field to its coefficient list `[cA_n, (cH_n, cV_n, cD_n), …,
(cH_1, cV_1, cD_1)]`, modelled as the approximation plus the list of detail
triples (index `levelReversed - 1` holds `coeffs[levelReversed]`, which for the
perturbed levels `1 … nrLevels-1` of the `'all'` scheme is always a detail
triple); `randn member` is the noise field drawn for that ensemble member. -/

/-- `to_zscores(data)` with the default `axis=None` (the only form the source
calls): z-scores `(data - nanmean)/nanstd` with the population standard
deviation; rational entries are never NaN. -/
noncomputable def to_zscores (data : Mat ℚ) : Mat ℝ × ℝ × ℝ :=
  let mean : ℝ := ((matMean data : ℚ) : ℝ)
  let stdev : ℝ := Real.sqrt ((matVar data : ℚ) : ℝ)
  (⟨data.rows, data.cols, fun i j => ((data.v i j : ℚ) - mean) / stdev⟩, mean, stdev)

/-- Elementwise product of two coefficient arrays. -/
def matMulE (x y : Mat ℚ) : Mat ℚ :=
  ⟨x.rows, x.cols, fun i j => x.v i j * y.v i j⟩

abbrev WaveCoeffs : Type := Mat ℚ × List (Mat ℚ × Mat ℚ × Mat ℚ)

def matZero : Mat ℚ := ⟨0, 0, fun _ _ => 0⟩

/-- One perturbation step at a fixed level (source lines 776–789): the loop
`for direction in range(0,2)` touches directions 0 (cH) and 1 (cV) only; for
each it computes the z-scores of the rain and noise coefficients (lines
782–783) and then stores `rainCoeffLevel[direction]*noiseCoeffLevel[direction]`
— the RAW product; the z-scores are discarded (their use on line 789 is
commented out).  cD (direction 2) is untouched. -/
noncomputable def perturbTriple (rt nt : Mat ℚ × Mat ℚ × Mat ℚ) : Mat ℚ × Mat ℚ × Mat ℚ :=
  let _rainCoeffH_zscores := to_zscores rt.1
  let _noiseCoeffH_zscores := to_zscores nt.1
  let _rainCoeffV_zscores := to_zscores rt.2.1
  let _noiseCoeffV_zscores := to_zscores nt.2.1
  (matMulE rt.1 nt.1, matMulE rt.2.1 nt.2.1, rt.2.2)

/-- In-place update of the i-th list element. -/
def listModify {α : Type} (f : α → α) : ℕ → List α → List α
  | _, [] => []
  | 0, x :: xs => f x :: xs
  | n + 1, x :: xs => x :: listModify f n xs

/-- The per-member perturbation loop with the default `level2perturb='all'`:
`levels2perturbList = np.arange(1, nrLevels)`, and for each `level` the triple
at `levelReversed = nrLevels - level` is replaced by its perturbation against
the noise coefficients at the same position. -/
noncomputable def perturbMember (nrLevels : ℕ) (coeffsRain coeffsNoise : WaveCoeffs) :
    WaveCoeffs :=
  let levels := List.range' 1 (nrLevels - 1)
  (coeffsRain.1,
    levels.foldl (fun acc level =>
      let levelReversed := nrLevels - level
      listModify (fun rt =>
          perturbTriple rt (coeffsNoise.2.getD (levelReversed - 1) (matZero, matZero, matZero)))
        (levelReversed - 1) acc)
      coeffsRain.2)

/-- `generate_wavelet_noise(rainfield, wavelet, nrLevels, 'all', nrMembers)`.
The rain coefficient list is decomposed once and then mutated in place inside
the member loop, so each member perturbs the coefficients already perturbed by
the previous members; the state threading reproduces this. -/
noncomputable def generate_wavelet_noise (wavedec2 : Mat ℚ → WaveCoeffs)
    (waverec2 : WaveCoeffs → Mat ℚ) (randn : ℕ → Mat ℚ)
    (rainfield : Mat ℚ) (nrLevels : ℕ) (nrMembers : ℕ) : List (Mat ℚ) :=
  let coeffsRain0 := wavedec2 rainfield
  ((List.range nrMembers).foldl (fun st member =>
      let coeffsNoise := wavedec2 (randn member)
      let coeffsRain := perturbMember nrLevels st.1 coeffsNoise
      (coeffsRain, st.2 ++ [waverec2 coeffsRain]))
    (coeffsRain0, [])).2

/-- C3 amended: the noise perturbation is NOT z-score based: at every perturbed
level the rain and noise wavelet coefficients are multiplied RAW (elementwise)
in directions 0 and 1, the z-scores being computed but discarded, and direction
2 is left unchanged; the reconstruction of a member applies `waverec2` to the
coefficients so perturbed. -/
theorem generate_wavelet_noise_raw_product :
    (∀ rt nt : Mat ℚ × Mat ℚ × Mat ℚ,
        perturbTriple rt nt = (matMulE rt.1 nt.1, matMulE rt.2.1 nt.2.1, rt.2.2)) ∧
      ∀ (wavedec2 : Mat ℚ → WaveCoeffs) (waverec2 : WaveCoeffs → Mat ℚ)
        (randn : ℕ → Mat ℚ) (rainfield : Mat ℚ) (nrLevels : ℕ),
        generate_wavelet_noise wavedec2 waverec2 randn rainfield nrLevels 1 =
          [waverec2 (perturbMember nrLevels (wavedec2 rainfield) (wavedec2 (randn 0)))] := by
  constructor
  · intro rt nt
    rfl
  · intro wavedec2 waverec2 randn rainfield nrLevels
    have h1 : List.range 1 = [0] := rfl
    simp [generate_wavelet_noise, h1]

def rainCoeffH : Mat ℚ := mkMat [[2, 4]]

def noiseCoeffH : Mat ℚ := mkMat [[0, 2]]

/-- C3 counterexample: for rain cH coefficients [[2, 4]] and noise cH
coefficients [[0, 2]], the coefficient actually stored at position (0,0) is the
raw product 2·0 = 0, while the z-score product demanded by the claim is
(−1)·(−1) = 1 (both arrays have mean-std pairs (3,1) and (1,1)). -/
theorem generate_wavelet_noise_claim_false :
    ((perturbTriple (rainCoeffH, matZero, matZero) (noiseCoeffH, matZero, matZero)).1).v 0 0
        = 0 ∧
      ((to_zscores rainCoeffH).1.v 0 0) * ((to_zscores noiseCoeffH).1.v 0 0) = 1 := by
  constructor
  · show rainCoeffH.v 0 0 * noiseCoeffH.v 0 0 = 0
    norm_num [rainCoeffH, noiseCoeffH, mkMat]
  · have hmr : matMean rainCoeffH = 3 := by
      norm_num [matMean, matSum, matCount, rainCoeffH, mkMat, Finset.sum_range_succ]
    have hvr : matVar rainCoeffH = 1 := by
      norm_num [matVar, matSum, matMean, matCount, rainCoeffH, mkMat, Finset.sum_range_succ]
    have hmn : matMean noiseCoeffH = 1 := by
      norm_num [matMean, matSum, matCount, noiseCoeffH, mkMat, Finset.sum_range_succ]
    have hvn : matVar noiseCoeffH = 1 := by
      norm_num [matVar, matSum, matMean, matCount, noiseCoeffH, mkMat, Finset.sum_range_succ]
    have hr : (to_zscores rainCoeffH).1.v 0 0 = -1 := by
      show ((rainCoeffH.v 0 0 : ℚ) - ((matMean rainCoeffH : ℚ) : ℝ)) /
          Real.sqrt ((matVar rainCoeffH : ℚ) : ℝ) = -1
      rw [hmr, hvr]
      have h0 : rainCoeffH.v 0 0 = 2 := by norm_num [rainCoeffH, mkMat]
      rw [h0]
      push_cast
      rw [Real.sqrt_one]
      norm_num
    have hn : (to_zscores noiseCoeffH).1.v 0 0 = -1 := by
      show ((noiseCoeffH.v 0 0 : ℚ) - ((matMean noiseCoeffH : ℚ) : ℝ)) /
          Real.sqrt ((matVar noiseCoeffH : ℚ) : ℝ) = -1
      rw [hmn, hvn]
      have h0 : noiseCoeffH.v 0 0 = 0 := by norm_num [noiseCoeffH, mkMat]
      rw [h0]
      push_cast
      rw [Real.sqrt_one]
      norm_num
    rw [hr, hn]
    norm_num

/-! ### compute_2d_spectrum

Source: src/pymodules/stat_tools_attractor.py lines 117–160.  Only the default
`FFTmod='NUMPY'` branch is modelled (the `'FFTW'` branch multiplies the field
by the window NAME, a string, and crashes). -/

/-- The Fourier kernel `e^(2·π·i·t)`. -/
noncomputable def ker (t : ℝ) : ℂ := Complex.exp (2 * Real.pi * Complex.I * t)

/-- `np.fft.fft2` on an M×N array:
`F[k,l] = Σ_{m<M} Σ_{n<N} x[m,n]·e^(−2πi(km/M + ln/N))`. -/
noncomputable def fft2 (x : ℕ → ℕ → ℂ) (M N : ℕ) (k l : ℕ) : ℂ :=
  ∑ m in Finset.range M, ∑ n in Finset.range N,
    x m n * ker (-(((k * m : ℕ) : ℝ) / M + ((l * n : ℕ) : ℝ) / N))

/-- Index arithmetic of `np.fft.fftshift` along one axis of length n:
`out[i] = in[(i + n - n/2) % n]` (zero frequency moves to position n/2). -/
def shiftIndex (n i : ℕ) : ℕ := (i + n - n / 2) % n

/-- `np.hanning(M)`: `0.5 − 0.5·cos(2πn/(M−1))`; `np.hanning(1) = [1]`. -/
noncomputable def hanning1d (M n : ℕ) : ℝ :=
  if M = 1 then 1 else 1 / 2 - 1 / 2 * Real.cos (2 * Real.pi * n / ((M : ℝ) - 1))

/-- `scipy.signal.blackman(M)` (symmetric):
`0.42 − 0.5·cos(2πn/(M−1)) + 0.08·cos(4πn/(M−1))`; length-1 window is `[1]`. -/
noncomputable def blackman1d (M n : ℕ) : ℝ :=
  if M = 1 then 1
  else 21 / 50 - 1 / 2 * Real.cos (2 * Real.pi * n / ((M : ℝ) - 1)) +
    2 / 25 * Real.cos (4 * Real.pi * n / ((M : ℝ) - 1))

inductive WindowKind : Type
  | blackman : WindowKind
  | hanning : WindowKind
deriving DecidableEq

/-- The 2D window `w = np.outer(w1d, w1d)` with `w1d` of length
`minFieldSize = min(rows, cols)`; no window means all-ones. -/
noncomputable def windowMatOf (wk : Option WindowKind) (rows cols : ℕ) : ℕ → ℕ → ℝ :=
  match wk with
  | some WindowKind.blackman => fun i j =>
      blackman1d (min rows cols) i * blackman1d (min rows cols) j
  | some WindowKind.hanning => fun i j =>
      hanning1d (min rows cols) i * hanning1d (min rows cols) j
  | none => fun _ _ => 1

/-- The windowed field `rainfallImage * w`. -/
noncomputable def windowedFieldOf (field : Mat ℚ) (wk : Option WindowKind) : ℕ → ℕ → ℝ :=
  fun i j => ((field.v i j : ℚ) : ℝ) * windowMatOf wk field.rows field.cols i j

/-- `scipy.fftpack.fftfreq(n, d)`: frequencies `0, 1, …, ⌈n/2⌉−1, −⌊n/2⌋, …, −1`
divided by `n·d`. -/
def fftfreq (n : ℕ) (d : ℚ) (i : ℕ) : ℚ :=
  if i < (n + 1) / 2 then (i : ℚ) / ((n : ℚ) * d) else ((i : ℚ) - (n : ℚ)) / ((n : ℚ) * d)

structure Spectrum2dResult where
  psd2d : ℕ → ℕ → ℝ
  freq : ℕ → ℚ

/-- `compute_2d_spectrum(rainfallImage, resolution, window)`:
window the field, 2D FFT, fftshift, and
`psd2d = np.abs(fprecip)**2/(fieldSize[0]*fieldSize[1])`; the returned
frequencies are `fftshift(fftfreq(minFieldSize, resolution))`.  A window
applied to a non-square field is a numpy broadcast error ((M,N) vs
(minSize,minSize)); the degenerate broadcast of a 1×N field is not modelled. -/
noncomputable def compute_2d_spectrum (rainfallImage : Mat ℚ) (resolution : ℚ)
    (window : Option WindowKind) : Except String Spectrum2dResult :=
  if window ≠ none ∧ rainfallImage.rows ≠ rainfallImage.cols then
    Except.error "operands could not be broadcast together"
  else
    let M := rainfallImage.rows
    let N := rainfallImage.cols
    let fprecipNoShift := fft2 (fun i j => ((windowedFieldOf rainfallImage window i j : ℝ) : ℂ)) M N
    let minFieldSize := min M N
    Except.ok
      ⟨fun k l =>
          Complex.abs (fprecipNoShift (shiftIndex M k) (shiftIndex N l)) ^ 2 / ((M : ℝ) * (N : ℝ)),
        fun i => fftfreq minFieldSize resolution (shiftIndex minFieldSize i)⟩

/-- The spec's claimed psd2d: the squared magnitude of the fftshift-ed 2D
Fourier transform of the windowed field, with no further normalization.
Modelled from the spec wording, for comparison with `compute_2d_spectrum`. -/
noncomputable def psd2d_claimed (field : Mat ℚ) (wk : Option WindowKind) (k l : ℕ) : ℝ :=
  Complex.abs
      (fft2 (fun i j => ((windowedFieldOf field wk i j : ℝ) : ℂ)) field.rows field.cols
        (shiftIndex field.rows k) (shiftIndex field.cols l)) ^ 2

/-- C6 amended: the returned psd2d is the squared magnitude of the fftshift-ed
2D Fourier transform of the windowed field DIVIDED BY the number of pixels
`fieldSize[0]*fieldSize[1]` (for any window that broadcasts, i.e. no window or
a square field). -/
theorem compute_2d_spectrum_amended (field : Mat ℚ) (resolution : ℚ)
    (wk : Option WindowKind) (h : wk = none ∨ field.rows = field.cols) :
    ∃ r, compute_2d_spectrum field resolution wk = Except.ok r ∧
      ∀ k l, r.psd2d k l = psd2d_claimed field wk k l / ((field.rows : ℝ) * (field.cols : ℝ)) := by
  unfold compute_2d_spectrum
  rw [if_neg]
  · exact ⟨_, rfl, fun k l => rfl⟩
  · rcases h with h | h
    · simp [h]
    · simp [h]

/-- Witness for `compute_2d_spectrum_amended` on a concrete field without a
window. -/
theorem compute_2d_spectrum_amended_witness :
    ((none : Option WindowKind) = none ∨ (mkMat [[1, 1]]).rows = (mkMat [[1, 1]]).cols) ∧
      ∃ r, compute_2d_spectrum (mkMat [[1, 1]]) 1 none = Except.ok r ∧
        ∀ k l, r.psd2d k l = psd2d_claimed (mkMat [[1, 1]]) none k l /
          (((mkMat [[1, 1]]).rows : ℝ) * ((mkMat [[1, 1]]).cols : ℝ)) :=
  ⟨Or.inl rfl, compute_2d_spectrum_amended (mkMat [[1, 1]]) 1 none (Or.inl rfl)⟩

def fieldC6 : Mat ℚ := mkMat [[1, 1]]

/-- C6 counterexample: for the 1×2 field [[1, 1]] (no window, resolution 1) the
fftshift-ed Fourier transform at position (0,1) is the zero-frequency
coefficient 2, so the claimed psd2d value (its squared magnitude) is 4, but the
returned psd2d value is 4/(1·2) = 2: the code divides by the number of
pixels. -/
theorem compute_2d_spectrum_claim_false :
    (compute_2d_spectrum fieldC6 1 none).map (fun r => r.psd2d 0 1) = Except.ok 2 ∧
      psd2d_claimed fieldC6 none 0 1 = 4 := by
  have hF : fft2 (fun i j => ((windowedFieldOf fieldC6 none i j : ℝ) : ℂ)) 1 2 0 0 = 2 := by
    simp [fft2, ker, windowedFieldOf, windowMatOf, fieldC6, mkMat, Finset.sum_range_succ]
    norm_num
  have hs1 : shiftIndex 1 0 = 0 := rfl
  have hs2 : shiftIndex 2 1 = 0 := rfl
  constructor
  · unfold compute_2d_spectrum
    rw [if_neg (by simp)]
    simp only [Except.map]
    congr 1
    show Complex.abs (fft2 (fun i j => ((windowedFieldOf fieldC6 none i j : ℝ) : ℂ))
        fieldC6.rows fieldC6.cols (shiftIndex fieldC6.rows 0) (shiftIndex fieldC6.cols 1)) ^ 2 /
        ((fieldC6.rows : ℝ) * (fieldC6.cols : ℝ)) = 2
    have hrows : fieldC6.rows = 1 := rfl
    have hcols : fieldC6.cols = 2 := rfl
    rw [hrows, hcols, hs1, hs2, hF, Complex.abs_two]
    norm_num
  · unfold psd2d_claimed
    have hrows : fieldC6.rows = 1 := rfl
    have hcols : fieldC6.cols = 2 := rfl
    rw [hrows, hcols, hs1, hs2, hF, Complex.abs_two]
    norm_num

/-! ### correlation_dimension

Source: src/pymodules/stat_tools_attractor.py lines 450–549 (the executed
branches: `strategyRadii = 'log'`, `fittingStrategy = 2`, `plot=False`).
`sd_dist = np.std(lp_distances)` is computed but unused (its use is commented
out) and is omitted. -/

/-- The L1 (p = 1) distance between the sample points in rows `i` and `j`:
`dist.squareform(dist.pdist(dataArray, p=1))[i, j]`. -/
def lpDist (m : Mat ℚ) (i j : ℕ) : ℚ :=
  ∑ k in Finset.range m.cols, |m.v i k - m.v j k|

/-- `np.sum(lp_distances < r)`: the number of entries of the FULL n×n distance
matrix (diagonal included) strictly below `r`. -/
noncomputable def countBelow (m : Mat ℚ) (r : ℝ) : ℕ :=
  ∑ i in Finset.range m.rows, ∑ j in Finset.range m.rows,
    if ((lpDist m i j : ℚ) : ℝ) < r then 1 else 0

/-- The correlation sum evaluated at radius `r`:
`1.0/(nr_samples*(nr_samples-1)) * np.sum(lp_distances < r)`. -/
noncomputable def Cr_of (m : Mat ℚ) (r : ℝ) : ℝ :=
  (countBelow m r : ℝ) / ((m.rows : ℝ) * ((m.rows : ℝ) - 1))

/-- The number of ordered pairs of DISTINCT indices whose distance is strictly
below `r` (what the claim says the correlation sum counts). -/
noncomputable def claimedCount (m : Mat ℚ) (r : ℝ) : ℕ :=
  ∑ i in Finset.range m.rows, ∑ j in Finset.range m.rows,
    if i ≠ j ∧ ((lpDist m i j : ℚ) : ℝ) < r then 1 else 0

/-- The correlation-sum value claimed by the spec: the fraction of ordered
pairs of distinct points below `r`, normalized by n(n−1).  Modelled from the
spec wording, for comparison with `Cr_of`. -/
noncomputable def Cr_claimed (m : Mat ℚ) (r : ℝ) : ℝ :=
  (claimedCount m r : ℝ) / ((m.rows : ℝ) * ((m.rows : ℝ) - 1))

/-- All n² pairwise distances, row-major (the flattened square-form matrix). -/
def distancesList (m : Mat ℚ) : List ℚ :=
  (List.range m.rows).flatMap fun i => (List.range m.rows).map fun j => lpDist m i j

/-- `lp_distances[lp_distances != 0]`. -/
def nonzeroDistances (m : Mat ℚ) : List ℚ :=
  (distancesList m).filter fun d => decide (d ≠ 0)

/-- `np.max(lp_distances)`; the junk value 0 on an empty matrix. -/
def maxDistance (m : Mat ℚ) : ℚ :=
  ((distancesList m).tail).foldl max ((distancesList m).headD 0)

/-- `np.linspace(a, b, n)`: n evenly spaced points from a to b inclusive. -/
noncomputable def linspace (a b : ℝ) (n : ℕ) : List ℝ :=
  (List.range n).map fun i => a + (i : ℝ) * (b - a) / ((n : ℝ) - 1)

/-- `np.log10`. -/
noncomputable def log10 (x : ℝ) : ℝ := Real.log x / Real.log 10

/-- The radii of the `'log'` strategy:
`r_min = np.percentile(lp_distances[lp_distances != 0], 0.01)`,
`r_max = np.max(lp_distances)`, and
`radii = 10**np.linspace(log10(r_min), log10(r_max), nrSteps)`. -/
noncomputable def radiiOf (m : Mat ℚ) (nrSteps : ℕ) : List ℝ :=
  (linspace (log10 ((np_percentile (nonzeroDistances m) (1 / 100) : ℚ) : ℝ))
      (log10 ((maxDistance m : ℚ) : ℝ)) nrSteps).map
    fun t => (10 : ℝ) ^ t

/-- The least-squares slope of `sp.polyfit(xs, ys, 1)` (ordinary least squares;
for a degenerate design — all xs equal — numpy's least-norm answer is not
modelled, the formula then divides by zero). -/
noncomputable def polyfitSlope (xs ys : List ℝ) : ℝ :=
  ((xs.length : ℝ) * (List.zipWith (· * ·) xs ys).sum - xs.sum * ys.sum) /
    ((xs.length : ℝ) * (xs.map fun x => x ^ 2).sum - xs.sum ^ 2)

/-- The least-squares intercept of `sp.polyfit(xs, ys, 1)`. -/
noncomputable def polyfitIntercept (xs ys : List ℝ) : ℝ :=
  (ys.sum - polyfitSlope xs ys * xs.sum) / (xs.length : ℝ)

/-- One iteration of the maximum-slope loop: the state is
`(maxSlope, maxIntercept)` with `maxIntercept = none` while unassigned;
`if slope > maxSlope: maxSlope = slope; maxIntercept = intercept`. -/
noncomputable def maxSlopeStep (st : ℝ × Option ℝ) (p : ℝ × ℝ) : ℝ × Option ℝ :=
  if st.1 < p.1 then (p.1, some p.2) else st

/-- The whole sliding-window loop, starting from `maxSlope = 0.0` and the
local `maxIntercept` unassigned. -/
noncomputable def maxSlopeLoop (ps : List (ℝ × ℝ)) : ℝ × Option ℝ :=
  ps.foldl maxSlopeStep (0, none)

/-- `correlation_dimension(dataArray, nrSteps)`: radii of the log strategy,
correlation sums, removal of the radii with zero `Cr`, and the
maximum-least-squares-slope fit over sliding windows of 20 consecutive
(log r, log Cr) points whose start indices advance by 2 while
`startIdx < len(radii) - 20`.  If no window slope is strictly positive the
final `intercept = maxIntercept` reads an unassigned local and raises
NameError. -/
noncomputable def correlation_dimension (dataArray : Mat ℚ) (nrSteps : ℕ) :
    Except String (List ℝ × List ℝ × ℝ × ℝ) :=
  let radii0 := radiiOf dataArray nrSteps
  let Cr0 := radii0.map (Cr_of dataArray)
  let pairs := (List.zip radii0 Cr0).filter fun p => decide (p.2 ≠ 0)
  let radii := pairs.map Prod.fst
  let Cr := pairs.map Prod.snd
  let logRadii := radii.map log10
  let logCr := Cr.map log10
  let nrPointsFitting := 20
  let starts := (List.range radii.length).filter fun s =>
    decide (s % 2 = 0 ∧ s < radii.length - nrPointsFitting)
  let windows := starts.map fun s =>
    (polyfitSlope ((logRadii.drop s).take nrPointsFitting) ((logCr.drop s).take nrPointsFitting),
     polyfitIntercept ((logRadii.drop s).take nrPointsFitting)
       ((logCr.drop s).take nrPointsFitting))
  let res := maxSlopeLoop windows
  match res.2 with
  | none => Except.error "NameError: name maxIntercept is not defined"
  | some intercept => Except.ok (radii, Cr, res.1, intercept)

/-- `lp_distances` vanishes on the diagonal. -/
theorem lpDist_self (m : Mat ℚ) (i : ℕ) : lpDist m i i = 0 := by
  simp [lpDist]

/-- The correlation-sum count includes the n zero diagonal entries. -/
theorem countBelow_eq (m : Mat ℚ) (r : ℝ) (hr : 0 < r) :
    countBelow m r = claimedCount m r + m.rows := by
  unfold countBelow claimedCount
  have key : ∀ i ∈ Finset.range m.rows,
      (∑ j in Finset.range m.rows, if ((lpDist m i j : ℚ) : ℝ) < r then 1 else 0) =
        (∑ j in Finset.range m.rows,
          if i ≠ j ∧ ((lpDist m i j : ℚ) : ℝ) < r then 1 else 0) + 1 := by
    intro i hi
    rw [← Finset.add_sum_erase (Finset.range m.rows)
        (fun j => if ((lpDist m i j : ℚ) : ℝ) < r then 1 else 0) hi,
      ← Finset.add_sum_erase (Finset.range m.rows)
        (fun j => if i ≠ j ∧ ((lpDist m i j : ℚ) : ℝ) < r then 1 else 0) hi]
    have hdiag : (if ((lpDist m i i : ℚ) : ℝ) < r then (1 : ℕ) else 0) = 1 := by
      rw [if_pos]
      rw [lpDist_self]
      exact_mod_cast hr
    have hdiag2 : (if i ≠ i ∧ ((lpDist m i i : ℚ) : ℝ) < r then (1 : ℕ) else 0) = 0 := by
      rw [if_neg]
      intro hcon
      exact hcon.1 rfl
    rw [hdiag, hdiag2]
    have herase : (∑ j in (Finset.range m.rows).erase i,
        if ((lpDist m i j : ℚ) : ℝ) < r then (1 : ℕ) else 0) =
        ∑ j in (Finset.range m.rows).erase i,
          if i ≠ j ∧ ((lpDist m i j : ℚ) : ℝ) < r then 1 else 0 := by
      refine Finset.sum_congr rfl fun j hj => ?_
      have hij : i ≠ j := Ne.symm (Finset.mem_erase.mp hj).1
      by_cases hlt : ((lpDist m i j : ℚ) : ℝ) < r
      · rw [if_pos hlt, if_pos ⟨hij, hlt⟩]
      · rw [if_neg hlt, if_neg fun hcon => hlt hcon.2]
    rw [herase]
    omega
  rw [Finset.sum_congr rfl key, Finset.sum_add_distrib, Finset.sum_const, Finset.card_range,
    smul_eq_mul, mul_one]

/-- The running maximum never drops below its initial value. -/
theorem maxSlopeLoop_ge_init :
    ∀ (ps : List (ℝ × ℝ)) (st : ℝ × Option ℝ), st.1 ≤ (ps.foldl maxSlopeStep st).1 := by
  intro ps
  induction ps with
  | nil => intro st; exact le_refl _
  | cons p t ih =>
    intro st
    refine le_trans ?_ (ih (maxSlopeStep st p))
    unfold maxSlopeStep
    split
    · exact le_of_lt (by assumption)
    · exact le_refl _

/-- The running maximum dominates every processed slope. -/
theorem maxSlopeLoop_ge_mem :
    ∀ (ps : List (ℝ × ℝ)) (st : ℝ × Option ℝ), ∀ p ∈ ps, p.1 ≤ (ps.foldl maxSlopeStep st).1 := by
  intro ps
  induction ps with
  | nil => intro st p hp; exact absurd hp (List.not_mem_nil p)
  | cons q t ih =>
    intro st p hp
    rcases List.mem_cons.mp hp with h | h
    · subst h
      refine le_trans ?_ (maxSlopeLoop_ge_init t (maxSlopeStep st p))
      unfold maxSlopeStep
      split
      · exact le_refl _
      · exact le_of_not_lt (by assumption)
    · exact ih (maxSlopeStep st q) p h

/-- The final maximum is either the initial value or one of the slopes. -/
theorem maxSlopeLoop_mem_or_init :
    ∀ (ps : List (ℝ × ℝ)) (st : ℝ × Option ℝ),
      (ps.foldl maxSlopeStep st).1 = st.1 ∨ (ps.foldl maxSlopeStep st).1 ∈ ps.map Prod.fst := by
  intro ps
  induction ps with
  | nil => intro st; exact Or.inl rfl
  | cons p t ih =>
    intro st
    rw [List.foldl_cons]
    rcases ih (maxSlopeStep st p) with h | h
    · by_cases hc : st.1 < p.1
      · have hstep : (maxSlopeStep st p).1 = p.1 := by
          unfold maxSlopeStep
          rw [if_pos hc]

        refine Or.inr ?_
        rw [h, hstep]
        simp
      · have hstep : maxSlopeStep st p = st := by
          unfold maxSlopeStep
          rw [if_neg hc]
        rw [hstep] at h
        rw [hstep]
        exact Or.inl h
    · exact Or.inr (List.mem_cons_of_mem _ h)

/-- C7 amended: (a) the correlation-sum value at each positive radius r is
(number of ordered pairs of DISTINCT points with L1 distance < r, PLUS the n
zero diagonal entries of the square-form distance matrix) divided by n(n−1);
(b) the returned fractal dimension `(maxSlopeLoop windows).1` is the maximum
over the sliding 20-point windows (starts advancing by 2) of the least-squares
slope, PROVIDED at least one window slope is strictly positive — the running
maximum starts at 0.0, and when no slope is positive the function instead
raises NameError on the unassigned `maxIntercept`. -/
theorem correlation_dimension_amended :
    (∀ (m : Mat ℚ) (r : ℝ), 0 < r →
        Cr_of m r = ((claimedCount m r : ℝ) + (m.rows : ℝ)) /
          ((m.rows : ℝ) * ((m.rows : ℝ) - 1))) ∧
      ∀ ps : List (ℝ × ℝ), (∃ p ∈ ps, 0 < p.1) →
        (maxSlopeLoop ps).1 ∈ ps.map Prod.fst ∧ ∀ p ∈ ps, p.1 ≤ (maxSlopeLoop ps).1 := by
  constructor
  · intro m r hr
    unfold Cr_of
    rw [countBelow_eq m r hr]
    push_cast
    ring
  · intro ps hex
    have hconv : maxSlopeLoop ps = ps.foldl maxSlopeStep (0, none) := rfl
    rw [hconv]
    have hmem := maxSlopeLoop_ge_mem ps (0, none)
    refine ⟨?_, hmem⟩
    rcases maxSlopeLoop_mem_or_init ps (0, none) with h | h
    · obtain ⟨p, hp, hpos⟩ := hex
      have h2 := hmem p hp
      rw [h] at h2
      exact absurd hpos (not_lt.mpr h2)
    · exact h

def dataC7 : Mat ℚ := mkMat [[0], [1]]

/-- Witness for `correlation_dimension_amended`: part (a) at the two-point
1D sample {0, 1} and radius 1, part (b) at the window list [(1, 0)]. -/
theorem correlation_dimension_amended_witness :
    ((0 : ℝ) < 1 ∧
        Cr_of dataC7 1 = ((claimedCount dataC7 1 : ℝ) + (dataC7.rows : ℝ)) /
          ((dataC7.rows : ℝ) * ((dataC7.rows : ℝ) - 1))) ∧
      (∃ p ∈ [((1 : ℝ), (0 : ℝ))], 0 < p.1) ∧
        ((maxSlopeLoop [((1 : ℝ), (0 : ℝ))]).1 ∈ [((1 : ℝ), (0 : ℝ))].map Prod.fst ∧
          ∀ p ∈ [((1 : ℝ), (0 : ℝ))], p.1 ≤ (maxSlopeLoop [((1 : ℝ), (0 : ℝ))]).1) :=
  ⟨⟨one_pos, correlation_dimension_amended.1 dataC7 1 one_pos⟩,
    ⟨(1, 0), List.mem_singleton_self _, one_pos⟩,
    correlation_dimension_amended.2 [((1 : ℝ), (0 : ℝ))]
      ⟨(1, 0), List.mem_singleton_self _, one_pos⟩⟩

/-- C7 counterexample: for the two-point 1D sample {0, 1} the log-strategy
radii all equal 1 (r_min = r_max = 1), and at the evaluated radius r = 1 the
code's correlation sum is (0 + 2 diagonal zeros)/(2·1) = 1, whereas the
fraction of ordered pairs of distinct points with distance < 1 is 0. -/
theorem correlation_dimension_claim_false :
    (radiiOf dataC7 100).head? = some 1 ∧ Cr_of dataC7 1 = 1 ∧ Cr_claimed dataC7 1 = 0 := by
  have hl00 : lpDist dataC7 0 0 = 0 := lpDist_self dataC7 0
  have hl11 : lpDist dataC7 1 1 = 0 := lpDist_self dataC7 1
  have hl01 : lpDist dataC7 0 1 = 1 := by
    norm_num [lpDist, dataC7, mkMat, Finset.sum_range_succ]
  have hl10 : lpDist dataC7 1 0 = 1 := by
    norm_num [lpDist, dataC7, mkMat, Finset.sum_range_succ]
  have hd : distancesList dataC7 =
      [lpDist dataC7 0 0, lpDist dataC7 0 1, lpDist dataC7 1 0, lpDist dataC7 1 1] := rfl
  have hnz : nonzeroDistances dataC7 = [1, 1] := by
    unfold nonzeroDistances
    rw [hd, hl00, hl01, hl10, hl11]
    norm_num [List.filter]
  have hsort : sortAsc [(1 : ℚ), 1] = [1, 1] := by
    norm_num [sortAsc, insertSorted]
  have hrmin : np_percentile (nonzeroDistances dataC7) (1 / 100) = 1 := by
    rw [hnz]
    simp only [np_percentile]
    rw [hsort]
    norm_num
  have hrmax : maxDistance dataC7 = 1 := by
    unfold maxDistance
    rw [hd, hl00, hl01, hl10, hl11]
    norm_num [List.foldl, max_def]
  have hmin0 : log10 ((np_percentile (nonzeroDistances dataC7) (1 / 100) : ℚ) : ℝ) = 0 := by
    rw [hrmin]
    simp [log10]
  have hmax0 : log10 ((maxDistance dataC7 : ℚ) : ℝ) = 0 := by
    rw [hrmax]
    simp [log10]
  have hls : ∀ a b : ℝ,
      (linspace a b 100).head? = some (a + ((0 : ℕ) : ℝ) * (b - a) / ((100 : ℝ) - 1)) :=
    fun a b => rfl
  refine ⟨?_, ?_, ?_⟩
  · unfold radiiOf
    rw [hmin0, hmax0, List.head?_map, hls 0 0]
    simp only [Option.map_some']
    rw [show (0 : ℝ) + ((0 : ℕ) : ℝ) * ((0 : ℝ) - 0) / ((100 : ℝ) - 1) = 0 by norm_num,
      Real.rpow_zero]
  · unfold Cr_of countBelow
    have h2 : dataC7.rows = 2 := rfl
    rw [h2]
    rw [Finset.sum_range_succ, Finset.sum_range_succ, Finset.sum_range_zero,
      Finset.sum_range_succ, Finset.sum_range_succ, Finset.sum_range_zero,
      Finset.sum_range_succ, Finset.sum_range_succ, Finset.sum_range_zero]
    rw [hl00, hl01, hl10, hl11]
    norm_num
  · unfold Cr_claimed claimedCount
    have h2 : dataC7.rows = 2 := rfl
    rw [h2]
    rw [Finset.sum_range_succ, Finset.sum_range_succ, Finset.sum_range_zero,
      Finset.sum_range_succ, Finset.sum_range_succ, Finset.sum_range_zero,
      Finset.sum_range_succ, Finset.sum_range_succ, Finset.sum_range_zero]
    rw [hl00, hl01, hl10, hl11]
    norm_num

/-! ### compute_autocorrelation_fft2

Source: src/pymodules/stat_tools_attractor.py lines 332–378 (the default
`FFTmod='NUMPY'` branch; the timing calls have no effect on the result). -/

theorem ker_zero : ker 0 = 1 := by simp [ker]

theorem ker_add (s t : ℝ) : ker (s + t) = ker s * ker t := by
  unfold ker
  rw [← Complex.exp_add]
  congr 1
  push_cast
  ring

theorem ker_nat_mul (k : ℕ) (t : ℝ) : ker ((k : ℝ) * t) = ker t ^ k := by
  unfold ker
  rw [← Complex.exp_nat_mul]
  congr 1
  push_cast
  ring

theorem ker_int (d : ℤ) : ker ((d : ℤ) : ℝ) = 1 := by
  unfold ker
  rw [← Complex.exp_int_mul_two_pi_mul_I d]
  congr 1
  push_cast
  ring

theorem ker_conj (t : ℝ) : (starRingEnd ℂ) (ker t) = ker (-t) := by
  unfold ker
  rw [← Complex.exp_conj]
  congr 1
  simp only [map_mul, Complex.conj_I, Complex.conj_ofReal, map_ofNat]
  push_cast
  ring

theorem ker_abs (t : ℝ) : Complex.abs (ker t) = 1 := by
  unfold ker
  have h : 2 * (Real.pi : ℂ) * Complex.I * (t : ℂ) = ((2 * Real.pi * t : ℝ) : ℂ) * Complex.I := by
    push_cast
    ring
  rw [h, Complex.abs_exp]
  simp

theorem ker_ne_one (M : ℕ) (hM : 0 < M) (d : ℤ) (h : ¬ (M : ℤ) ∣ d) :
    ker ((d : ℝ) / M) ≠ 1 := by
  intro hone
  unfold ker at hone
  obtain ⟨n, hn⟩ := Complex.exp_eq_one_iff.mp hone
  have h2pi : (2 * (Real.pi : ℂ) * Complex.I) ≠ 0 := by
    refine mul_ne_zero (mul_ne_zero two_ne_zero ?_) Complex.I_ne_zero
    exact Complex.ofReal_ne_zero.mpr Real.pi_ne_zero
  have hx : (((d : ℝ) / M : ℝ) : ℂ) = (n : ℂ) := by
    apply mul_left_cancel₀ h2pi
    rw [hn]
    ring
  have hx2 : (d : ℝ) / M = (n : ℝ) := by
    exact_mod_cast hx
  have hM0 : (M : ℝ) ≠ 0 := Nat.cast_ne_zero.mpr (by omega)
  have hd : (d : ℝ) = (n : ℝ) * (M : ℝ) := by
    field_simp at hx2
    linarith [hx2]
  have hdz : d = n * (M : ℤ) := by exact_mod_cast hd
  exact h ⟨n, by linarith [hdz]⟩

/-- Sum of the M-th roots of unity along `e^(2πi·k·d/M)`: M when M divides d. -/
theorem ker_sum_dvd (M : ℕ) (hM : 0 < M) (d : ℤ) (h : (M : ℤ) ∣ d) :
    ∑ k in Finset.range M, ker ((k : ℝ) * ((d : ℝ) / M)) = (M : ℂ) := by
  obtain ⟨c, rfl⟩ := h
  have hM0 : (M : ℝ) ≠ 0 := Nat.cast_ne_zero.mpr (by omega)
  have hterm : ∀ k : ℕ, ker ((k : ℝ) * ((((M : ℤ) * c : ℤ) : ℝ) / M)) = 1 := by
    intro k
    have h1 : ((((M : ℤ) * c : ℤ) : ℝ)) / (M : ℝ) = ((c : ℤ) : ℝ) := by
      push_cast
      field_simp
    rw [h1]
    have h2 : ((k : ℕ) : ℝ) * ((c : ℤ) : ℝ) = (((k : ℤ) * c : ℤ) : ℝ) := by
      push_cast
      ring
    rw [h2, ker_int]
  rw [Finset.sum_congr rfl fun k _ => hterm k, Finset.sum_const, Finset.card_range]
  simp

/-- Sum of the M-th roots of unity: 0 when M does not divide d. -/
theorem ker_sum_not_dvd (M : ℕ) (hM : 0 < M) (d : ℤ) (h : ¬ (M : ℤ) ∣ d) :
    ∑ k in Finset.range M, ker ((k : ℝ) * ((d : ℝ) / M)) = 0 := by
  have hz : ∀ k : ℕ, ker ((k : ℝ) * ((d : ℝ) / M)) = ker ((d : ℝ) / M) ^ k :=
    fun k => ker_nat_mul k _
  rw [Finset.sum_congr rfl fun k _ => hz k]
  rw [geom_sum_eq (ker_ne_one M hM d h)]
  have hM0 : (M : ℝ) ≠ 0 := Nat.cast_ne_zero.mpr (by omega)
  have hpow : ker ((d : ℝ) / M) ^ M = 1 := by
    rw [← ker_nat_mul]
    have h1 : (M : ℝ) * ((d : ℝ) / M) = ((d : ℤ) : ℝ) := by field_simp
    rw [h1, ker_int]
  rw [hpow]
  simp

/-- Orthogonality of the discrete Fourier characters at in-range indices. -/
theorem ker_sum_ortho (M : ℕ) (hM : 0 < M) (p q : ℕ) (hp : p < M) (hq : q < M) :
    ∑ k in Finset.range M, ker ((k : ℝ) * (((q : ℝ) - (p : ℝ)) / M)) =
      if p = q then (M : ℂ) else 0 := by
  have hcast : ((q : ℝ) - (p : ℝ)) = (((q : ℤ) - (p : ℤ) : ℤ) : ℝ) := by push_cast; ring
  rw [hcast]
  by_cases hpq : p = q
  · rw [if_pos hpq]
    subst hpq
    have hd : ((p : ℤ) - (p : ℤ)) = 0 := by ring
    rw [hd]
    exact ker_sum_dvd M hM 0 (dvd_zero _)
  · rw [if_neg hpq]
    apply ker_sum_not_dvd M hM _
    intro hdvd
    obtain ⟨c, hc⟩ := hdvd
    have hMz : (0 : ℤ) < (M : ℤ) := by exact_mod_cast hM
    have h1 : -(M : ℤ) < (q : ℤ) - (p : ℤ) := by omega
    have h2 : (q : ℤ) - (p : ℤ) < (M : ℤ) := by omega
    rw [hc] at h1 h2
    have hc1 : c < 1 := by nlinarith
    have hc2 : -1 < c := by nlinarith
    have hc0 : c = 0 := by omega
    rw [hc0, mul_zero] at hc
    exact hpq (by omega)

/-- Parseval identity for the 2D DFT of a real array:
`Σ_{k,l} F[k,l]·conj(F[k,l]) = M·N·Σ_{m,n} x[m,n]²`. -/
theorem dft_parseval (x : ℕ → ℕ → ℝ) (M N : ℕ) (hM : 0 < M) (hN : 0 < N) :
    ∑ u in Finset.range M ×ˢ Finset.range N,
        fft2 (fun i j => ((x i j : ℝ) : ℂ)) M N u.1 u.2 *
          (starRingEnd ℂ) (fft2 (fun i j => ((x i j : ℝ) : ℂ)) M N u.1 u.2) =
      ((M : ℂ) * (N : ℂ)) *
        ∑ p in Finset.range M ×ˢ Finset.range N, ((x p.1 p.2 : ℝ) : ℂ) ^ 2 := by
  set R := Finset.range M ×ˢ Finset.range N with hR
  have hF : ∀ k l : ℕ, fft2 (fun i j => ((x i j : ℝ) : ℂ)) M N k l =
      ∑ p in R, ((x p.1 p.2 : ℝ) : ℂ) *
        ker (-((k : ℝ) * (p.1 : ℝ) / M + (l : ℝ) * (p.2 : ℝ) / N)) := by
    intro k l
    rw [hR, Finset.sum_product]
    unfold fft2
    refine Finset.sum_congr rfl fun m _ => Finset.sum_congr rfl fun n _ => ?_
    congr 2
    push_cast
    ring
  have hFc : ∀ k l : ℕ, (starRingEnd ℂ) (fft2 (fun i j => ((x i j : ℝ) : ℂ)) M N k l) =
      ∑ q in R, ((x q.1 q.2 : ℝ) : ℂ) *
        ker ((k : ℝ) * (q.1 : ℝ) / M + (l : ℝ) * (q.2 : ℝ) / N) := by
    intro k l
    rw [hF, map_sum]
    refine Finset.sum_congr rfl fun q _ => ?_
    rw [map_mul, Complex.conj_ofReal, ker_conj, neg_neg]
  calc
    ∑ u in R, fft2 (fun i j => ((x i j : ℝ) : ℂ)) M N u.1 u.2 *
        (starRingEnd ℂ) (fft2 (fun i j => ((x i j : ℝ) : ℂ)) M N u.1 u.2)
      = ∑ u in R, ∑ p in R, ∑ q in R,
          (((x p.1 p.2 : ℝ) : ℂ) * ((x q.1 q.2 : ℝ) : ℂ)) *
            ker ((u.1 : ℝ) * ((q.1 : ℝ) - (p.1 : ℝ)) / M +
              (u.2 : ℝ) * ((q.2 : ℝ) - (p.2 : ℝ)) / N) := by
        refine Finset.sum_congr rfl fun u _ => ?_
        rw [hFc, hF, Finset.sum_mul_sum]
        refine Finset.sum_congr rfl fun p _ => Finset.sum_congr rfl fun q _ => ?_
        rw [mul_mul_mul_comm, ← ker_add]
        congr 2
        ring
    _ = ∑ p in R, ∑ q in R,
          (((x p.1 p.2 : ℝ) : ℂ) * ((x q.1 q.2 : ℝ) : ℂ)) *
            ∑ u in R, ker ((u.1 : ℝ) * ((q.1 : ℝ) - (p.1 : ℝ)) / M +
              (u.2 : ℝ) * ((q.2 : ℝ) - (p.2 : ℝ)) / N) := by
        rw [Finset.sum_comm]
        refine Finset.sum_congr rfl fun p _ => ?_
        rw [Finset.sum_comm]
        refine Finset.sum_congr rfl fun q _ => ?_
        rw [Finset.mul_sum]
    _ = ∑ p in R, ∑ q in R,
          (((x p.1 p.2 : ℝ) : ℂ) * ((x q.1 q.2 : ℝ) : ℂ)) *
            ((if p.1 = q.1 then (M : ℂ) else 0) * (if p.2 = q.2 then (N : ℂ) else 0)) := by
        refine Finset.sum_congr rfl fun p hpR => Finset.sum_congr rfl fun q hqR => ?_
        congr 1
        rw [hR] at hpR hqR
        have hp1 := (Finset.mem_product.mp hpR).1
        have hp2 := (Finset.mem_product.mp hpR).2
        have hq1 := (Finset.mem_product.mp hqR).1
        have hq2 := (Finset.mem_product.mp hqR).2
        rw [Finset.mem_range] at hp1 hp2 hq1 hq2
        rw [hR, Finset.sum_product]
        have hsep : ∀ k l : ℕ,
            ker ((k : ℝ) * ((q.1 : ℝ) - (p.1 : ℝ)) / M + (l : ℝ) * ((q.2 : ℝ) - (p.2 : ℝ)) / N) =
              ker ((k : ℝ) * (((q.1 : ℝ) - (p.1 : ℝ)) / M)) *
                ker ((l : ℝ) * (((q.2 : ℝ) - (p.2 : ℝ)) / N)) := by
          intro k l
          rw [← ker_add]
          congr 1
          ring
        calc
          ∑ k in Finset.range M, ∑ l in Finset.range N,
              ker ((k : ℝ) * ((q.1 : ℝ) - (p.1 : ℝ)) / M +
                (l : ℝ) * ((q.2 : ℝ) - (p.2 : ℝ)) / N)
            = ∑ k in Finset.range M, ∑ l in Finset.range N,
                ker ((k : ℝ) * (((q.1 : ℝ) - (p.1 : ℝ)) / M)) *
                  ker ((l : ℝ) * (((q.2 : ℝ) - (p.2 : ℝ)) / N)) := by
              exact Finset.sum_congr rfl fun k _ => Finset.sum_congr rfl fun l _ => hsep k l
          _ = (∑ k in Finset.range M, ker ((k : ℝ) * (((q.1 : ℝ) - (p.1 : ℝ)) / M))) *
                (∑ l in Finset.range N, ker ((l : ℝ) * (((q.2 : ℝ) - (p.2 : ℝ)) / N))) := by
              rw [Finset.sum_mul_sum]
          _ = (if p.1 = q.1 then (M : ℂ) else 0) * (if p.2 = q.2 then (N : ℂ) else 0) := by
              rw [ker_sum_ortho M hM p.1 q.1 hp1 hq1, ker_sum_ortho N hN p.2 q.2 hp2 hq2]
    _ = ∑ p in R, (((x p.1 p.2 : ℝ) : ℂ) * ((x p.1 p.2 : ℝ) : ℂ)) * ((M : ℂ) * (N : ℂ)) := by
        refine Finset.sum_congr rfl fun p hpR => ?_
        have hzero : ∀ q ∈ R, q ≠ p →
            (((x p.1 p.2 : ℝ) : ℂ) * ((x q.1 q.2 : ℝ) : ℂ)) *
              ((if p.1 = q.1 then (M : ℂ) else 0) * (if p.2 = q.2 then (N : ℂ) else 0)) = 0 := by
          intro q hqR hqp
          by_cases h1 : p.1 = q.1
          · have h2 : p.2 ≠ q.2 := by
              intro h2
              exact hqp (Prod.ext_iff.mpr ⟨h1, h2⟩).symm
            rw [if_neg h2, mul_zero, mul_zero]
          · rw [if_neg h1, zero_mul, mul_zero]
        rw [Finset.sum_eq_single_of_mem p hpR hzero, if_pos rfl, if_pos rfl]
    _ = ((M : ℂ) * (N : ℂ)) * ∑ p in R, ((x p.1 p.2 : ℝ) : ℂ) ^ 2 := by
        rw [Finset.mul_sum]
        refine Finset.sum_congr rfl fun p _ => ?_
        ring

/-- `np.fft.ifft2` on an M×N array:
`a[t1,t2] = (1/(M·N))·Σ_{k<M} Σ_{l<N} x[k,l]·e^(+2πi(k·t1/M + l·t2/N))`. -/
noncomputable def ifft2 (x : ℕ → ℕ → ℂ) (M N : ℕ) (t1 t2 : ℕ) : ℂ :=
  (∑ k in Finset.range M, ∑ l in Finset.range N,
    x k l * ker (((k * t1 : ℕ) : ℝ) / M + ((l * t2 : ℕ) : ℝ) / N)) / ((M * N : ℕ) : ℂ)

/-- `imageArray - field_mean`: the mean-removed field. -/
noncomputable def acfCentered (m : Mat ℚ) : ℕ → ℕ → ℝ :=
  fun i j => ((m.v i j - matMean m : ℚ) : ℝ)

/-- `fourier = np.fft.fft2(imageArray - field_mean)`. -/
noncomputable def acfFourier (m : Mat ℚ) : ℕ → ℕ → ℂ :=
  fft2 (fun i j => ((acfCentered m i j : ℝ) : ℂ)) m.rows m.cols

/-- `powerSpectrum = np.abs(fourier)**2/(field_dim[0]*field_dim[1])`. -/
noncomputable def acfPowerSpectrum (m : Mat ℚ) (k l : ℕ) : ℝ :=
  Complex.abs (acfFourier m k l) ^ 2 / ((matCount m : ℕ) : ℝ)

/-- `autocovariance = np.fft.ifft2(powerSpectrum)`. -/
noncomputable def acfAutocovariance (m : Mat ℚ) (t1 t2 : ℕ) : ℂ :=
  ifft2 (fun k l => ((acfPowerSpectrum m k l : ℝ) : ℂ)) m.rows m.cols t1 t2

/-- `autocorrelation = autocovariance.real/field_var`. -/
noncomputable def acfAutocorrelation (m : Mat ℚ) (t1 t2 : ℕ) : ℝ :=
  (acfAutocovariance m t1 t2).re / ((matVar m : ℚ) : ℝ)

/-- `compute_autocorrelation_fft2(imageArray)`: the pair
`(autocorrelation_shifted, powerSpectrum_shifted)` (both axes fftshift-ed). -/
noncomputable def compute_autocorrelation_fft2 (m : Mat ℚ) : (ℕ → ℕ → ℝ) × (ℕ → ℕ → ℝ) :=
  (fun i j => acfAutocorrelation m (shiftIndex m.rows i) (shiftIndex m.cols j),
   fun i j => acfPowerSpectrum m (shiftIndex m.rows i) (shiftIndex m.cols j))

/-- A nonzero variance forces a nonempty array. -/
theorem matVar_ne_zero_pos (m : Mat ℚ) (hv : matVar m ≠ 0) : 0 < m.rows ∧ 0 < m.cols := by
  constructor
  · by_contra h
    have hr : m.rows = 0 := by omega
    exact hv (by unfold matVar matCount; rw [hr]; simp)
  · by_contra h
    have hc : m.cols = 0 := by omega
    exact hv (by unfold matVar matCount; rw [hc]; simp)

/-- The variance is nonnegative. -/
theorem matVar_nonneg (m : Mat ℚ) : 0 ≤ matVar m := by
  unfold matVar
  apply div_nonneg
  · apply Finset.sum_nonneg
    intro i _
    apply Finset.sum_nonneg
    intro j _
    positivity
  · positivity

/-- The sum of squares of the centered field is (number of pixels)·variance. -/
theorem sum_sq_centered (m : Mat ℚ) (hM : 0 < m.rows) (hN : 0 < m.cols) :
    ∑ i in Finset.range m.rows, ∑ j in Finset.range m.cols, acfCentered m i j ^ 2 =
      ((matCount m : ℕ) : ℝ) * ((matVar m : ℚ) : ℝ) := by
  have hcount : (matCount m : ℚ) ≠ 0 := by
    unfold matCount
    push_cast
    positivity
  have hq : (∑ i in Finset.range m.rows, ∑ j in Finset.range m.cols,
      (m.v i j - matMean m) ^ 2) = (matCount m : ℚ) * matVar m := by
    unfold matVar
    field_simp
  have hcast : ∑ i in Finset.range m.rows, ∑ j in Finset.range m.cols, acfCentered m i j ^ 2 =
      ((∑ i in Finset.range m.rows, ∑ j in Finset.range m.cols,
        (m.v i j - matMean m) ^ 2 : ℚ) : ℝ) := by
    unfold acfCentered
    push_cast
    rfl
  rw [hcast, hq]
  push_cast
  ring

/-- The power spectrum is nonnegative. -/
theorem acfPowerSpectrum_nonneg (m : Mat ℚ) (k l : ℕ) : 0 ≤ acfPowerSpectrum m k l := by
  unfold acfPowerSpectrum
  positivity

/-- Parseval identity in nested-sum form. -/
theorem dft_parseval_nested (x : ℕ → ℕ → ℝ) (M N : ℕ) (hM : 0 < M) (hN : 0 < N) :
    ∑ k in Finset.range M, ∑ l in Finset.range N,
        fft2 (fun i j => ((x i j : ℝ) : ℂ)) M N k l *
          (starRingEnd ℂ) (fft2 (fun i j => ((x i j : ℝ) : ℂ)) M N k l) =
      ((M : ℂ) * (N : ℂ)) *
        ∑ i in Finset.range M, ∑ j in Finset.range N, ((x i j : ℝ) : ℂ) ^ 2 := by
  have h := dft_parseval x M N hM hN
  simp only [Finset.sum_product] at h
  exact h

/-- Parseval for the power spectrum: its total mass is (number of pixels)·variance. -/
theorem acf_sum_powerSpectrum (m : Mat ℚ) (hM : 0 < m.rows) (hN : 0 < m.cols) :
    ∑ k in Finset.range m.rows, ∑ l in Finset.range m.cols, acfPowerSpectrum m k l =
      ((matCount m : ℕ) : ℝ) * ((matVar m : ℚ) : ℝ) := by
  have hMN : ((matCount m : ℕ) : ℝ) ≠ 0 := by
    unfold matCount
    push_cast
    positivity
  have hnorm : ∑ k in Finset.range m.rows, ∑ l in Finset.range m.cols,
      Complex.abs (acfFourier m k l) ^ 2 =
      ((matCount m : ℕ) : ℝ) *
        ∑ i in Finset.range m.rows, ∑ j in Finset.range m.cols, acfCentered m i j ^ 2 := by
    have hpars := dft_parseval_nested (acfCentered m) m.rows m.cols hM hN
    have hC : ((∑ k in Finset.range m.rows, ∑ l in Finset.range m.cols,
        Complex.abs (acfFourier m k l) ^ 2 : ℝ) : ℂ) =
        ((((matCount m : ℕ) : ℝ) *
          ∑ i in Finset.range m.rows, ∑ j in Finset.range m.cols,
            acfCentered m i j ^ 2 : ℝ) : ℂ) := by
      push_cast
      calc
        ∑ k in Finset.range m.rows, ∑ l in Finset.range m.cols,
            ((Complex.abs (acfFourier m k l) : ℝ) : ℂ) ^ 2
          = ∑ k in Finset.range m.rows, ∑ l in Finset.range m.cols,
              acfFourier m k l * (starRingEnd ℂ) (acfFourier m k l) := by
            refine Finset.sum_congr rfl fun k _ => Finset.sum_congr rfl fun l _ => ?_
            rw [Complex.mul_conj]
            norm_cast
            rw [← Complex.sq_abs]
        _ = ((m.rows : ℂ) * (m.cols : ℂ)) *
              ∑ i in Finset.range m.rows, ∑ j in Finset.range m.cols,
                ((acfCentered m i j : ℝ) : ℂ) ^ 2 := hpars
        _ = ((matCount m : ℕ) : ℂ) *
              ∑ i in Finset.range m.rows, ∑ j in Finset.range m.cols,
                ((acfCentered m i j : ℝ) : ℂ) ^ 2 := by
            unfold matCount
            push_cast
            ring
    have hre := Complex.ofReal_inj.mp hC
    exact hre
  calc
    ∑ k in Finset.range m.rows, ∑ l in Finset.range m.cols, acfPowerSpectrum m k l
      = (∑ k in Finset.range m.rows, ∑ l in Finset.range m.cols,
          Complex.abs (acfFourier m k l) ^ 2) / ((matCount m : ℕ) : ℝ) := by
        unfold acfPowerSpectrum
        rw [Finset.sum_div]
        refine Finset.sum_congr rfl fun k _ => ?_
        rw [Finset.sum_div]
    _ = (((matCount m : ℕ) : ℝ) *
          ∑ i in Finset.range m.rows, ∑ j in Finset.range m.cols, acfCentered m i j ^ 2) /
          ((matCount m : ℕ) : ℝ) := by rw [hnorm]
    _ = ∑ i in Finset.range m.rows, ∑ j in Finset.range m.cols, acfCentered m i j ^ 2 := by
        field_simp
    _ = ((matCount m : ℕ) : ℝ) * ((matVar m : ℚ) : ℝ) := sum_sq_centered m hM hN

/-- The autocovariance at zero lag is the field variance (Wiener–Khinchin at
lag 0, via Parseval). -/
theorem acfAutocovariance_zero (m : Mat ℚ) (hM : 0 < m.rows) (hN : 0 < m.cols) :
    acfAutocovariance m 0 0 = (((matVar m : ℚ) : ℝ) : ℂ) := by
  have hsum := acf_sum_powerSpectrum m hM hN
  have hcount0 : ((matCount m : ℕ) : ℂ) ≠ 0 := by
    have hne : matCount m ≠ 0 := by
      unfold matCount
      exact Nat.mul_ne_zero (by omega) (by omega)
    exact_mod_cast hne
  unfold acfAutocovariance ifft2
  have harg : ∀ k l : ℕ,
      (((k * 0 : ℕ) : ℝ) / m.rows + ((l * 0 : ℕ) : ℝ) / m.cols) = 0 := by
    intro k l
    push_cast
    simp
  calc
    (∑ k in Finset.range m.rows, ∑ l in Finset.range m.cols,
        ((acfPowerSpectrum m k l : ℝ) : ℂ) *
          ker (((k * 0 : ℕ) : ℝ) / m.rows + ((l * 0 : ℕ) : ℝ) / m.cols)) /
        ((m.rows * m.cols : ℕ) : ℂ)
      = (∑ k in Finset.range m.rows, ∑ l in Finset.range m.cols,
          ((acfPowerSpectrum m k l : ℝ) : ℂ)) / ((m.rows * m.cols : ℕ) : ℂ) := by
        congr 1
        refine Finset.sum_congr rfl fun k _ => Finset.sum_congr rfl fun l _ => ?_
        rw [harg, ker_zero, mul_one]
    _ = (((∑ k in Finset.range m.rows, ∑ l in Finset.range m.cols,
          acfPowerSpectrum m k l : ℝ)) : ℂ) / ((matCount m : ℕ) : ℂ) := by
        unfold matCount
        push_cast
        rfl
    _ = ((((matCount m : ℕ) : ℝ) * ((matVar m : ℚ) : ℝ) : ℝ) : ℂ) /
          ((matCount m : ℕ) : ℂ) := by rw [hsum]
    _ = (((matVar m : ℚ) : ℝ) : ℂ) := by
        push_cast
        field_simp

/-- The autocovariance is bounded in absolute value by the variance (triangle
inequality plus the Parseval mass of the nonnegative power spectrum). -/
theorem acfAutocovariance_abs_le (m : Mat ℚ) (hM : 0 < m.rows) (hN : 0 < m.cols)
    (t1 t2 : ℕ) :
    Complex.abs (acfAutocovariance m t1 t2) ≤ ((matVar m : ℚ) : ℝ) := by
  have hcount : (0 : ℝ) < ((m.rows * m.cols : ℕ) : ℝ) := by
    exact_mod_cast Nat.mul_pos hM hN
  unfold acfAutocovariance ifft2
  rw [map_div₀]
  have hden : Complex.abs (((m.rows * m.cols : ℕ) : ℂ)) = ((m.rows * m.cols : ℕ) : ℝ) :=
    Complex.abs_natCast _
  rw [hden, div_le_iff₀ hcount]
  calc
    Complex.abs (∑ k in Finset.range m.rows, ∑ l in Finset.range m.cols,
        ((acfPowerSpectrum m k l : ℝ) : ℂ) *
          ker (((k * t1 : ℕ) : ℝ) / m.rows + ((l * t2 : ℕ) : ℝ) / m.cols))
      ≤ ∑ k in Finset.range m.rows, Complex.abs (∑ l in Finset.range m.cols,
          ((acfPowerSpectrum m k l : ℝ) : ℂ) *
            ker (((k * t1 : ℕ) : ℝ) / m.rows + ((l * t2 : ℕ) : ℝ) / m.cols)) :=
        Complex.abs.sum_le _ _
    _ ≤ ∑ k in Finset.range m.rows, ∑ l in Finset.range m.cols,
          Complex.abs (((acfPowerSpectrum m k l : ℝ) : ℂ) *
            ker (((k * t1 : ℕ) : ℝ) / m.rows + ((l * t2 : ℕ) : ℝ) / m.cols)) :=
        Finset.sum_le_sum fun k _ => Complex.abs.sum_le _ _
    _ = ∑ k in Finset.range m.rows, ∑ l in Finset.range m.cols, acfPowerSpectrum m k l := by
        refine Finset.sum_congr rfl fun k _ => Finset.sum_congr rfl fun l _ => ?_
        rw [map_mul, ker_abs, mul_one, Complex.abs_ofReal,
          abs_of_nonneg (acfPowerSpectrum_nonneg m k l)]
    _ = ((matCount m : ℕ) : ℝ) * ((matVar m : ℚ) : ℝ) := acf_sum_powerSpectrum m hM hN
    _ = ((matVar m : ℚ) : ℝ) * ((m.rows * m.cols : ℕ) : ℝ) := by
        unfold matCount
        ring

/-- C8: `compute_autocorrelation_fft2` computes the autocovariance as the
inverse 2D Fourier transform of the power spectrum of the mean-removed field
and divides it by the field variance (this is the definition of
`acfAutocovariance`/`acfAutocorrelation`); consequently, for every field with
nonzero variance, every value of the returned shifted autocorrelation lies in
[−1, 1] and its value at the center of the shifted array (the zero lag) equals
1. -/
theorem compute_autocorrelation_fft2_bounds (m : Mat ℚ) (hv : matVar m ≠ 0) :
    (∀ i j, -1 ≤ (compute_autocorrelation_fft2 m).1 i j ∧
        (compute_autocorrelation_fft2 m).1 i j ≤ 1) ∧
      (compute_autocorrelation_fft2 m).1 (m.rows / 2) (m.cols / 2) = 1 := by
  obtain ⟨hM, hN⟩ := matVar_ne_zero_pos m hv
  have hvpos : (0 : ℝ) < ((matVar m : ℚ) : ℝ) := by
    have h2 : (0 : ℚ) < matVar m := lt_of_le_of_ne (matVar_nonneg m) (Ne.symm hv)
    exact_mod_cast h2
  constructor
  · intro i j
    have habs := acfAutocovariance_abs_le m hM hN (shiftIndex m.rows i) (shiftIndex m.cols j)
    have hre : |(acfAutocovariance m (shiftIndex m.rows i) (shiftIndex m.cols j)).re| ≤
        ((matVar m : ℚ) : ℝ) :=
      le_trans (Complex.abs_re_le_abs _) habs
    obtain ⟨hlo, hhi⟩ := abs_le.mp hre
    show -1 ≤ acfAutocorrelation m (shiftIndex m.rows i) (shiftIndex m.cols j) ∧
      acfAutocorrelation m (shiftIndex m.rows i) (shiftIndex m.cols j) ≤ 1
    unfold acfAutocorrelation
    constructor
    · rw [le_div_iff₀ hvpos]
      linarith
    · rw [div_le_one hvpos]
      exact hhi
  · show acfAutocorrelation m (shiftIndex m.rows (m.rows / 2)) (shiftIndex m.cols (m.cols / 2)) = 1
    have hs1 : shiftIndex m.rows (m.rows / 2) = 0 := by
      unfold shiftIndex
      rw [show m.rows / 2 + m.rows - m.rows / 2 = m.rows from by omega, Nat.mod_self]
    have hs2 : shiftIndex m.cols (m.cols / 2) = 0 := by
      unfold shiftIndex
      rw [show m.cols / 2 + m.cols - m.cols / 2 = m.cols from by omega, Nat.mod_self]
    rw [hs1, hs2]
    unfold acfAutocorrelation
    rw [acfAutocovariance_zero m hM hN, Complex.ofReal_re]
    exact div_self (ne_of_gt hvpos)

def acfField : Mat ℚ := mkMat [[0, 1], [1, 0]]

/-- Witness for `compute_autocorrelation_fft2_bounds` at the 2×2 field
[[0, 1], [1, 0]], whose variance is 1/4. -/
theorem compute_autocorrelation_fft2_bounds_witness :
    matVar acfField ≠ 0 ∧
      ((∀ i j, -1 ≤ (compute_autocorrelation_fft2 acfField).1 i j ∧
          (compute_autocorrelation_fft2 acfField).1 i j ≤ 1) ∧
        (compute_autocorrelation_fft2 acfField).1 (acfField.rows / 2) (acfField.cols / 2) = 1) := by
  have hv : matVar acfField ≠ 0 := by
    have : matVar acfField = 1 / 4 := by
      norm_num [matVar, matMean, matSum, matCount, acfField, mkMat, Finset.sum_range_succ]
    rw [this]
    norm_num
  exact ⟨hv, compute_autocorrelation_fft2_bounds acfField hv⟩
